import Mathlib

/-!
Verification of the shunting-yard trace engine (`src/utils/shuntingYard.ts`,
`src/types.ts`) against its natural-language specification.

The TypeScript source is shallowly embedded: the tokenizer, the token and
snapshot data model, and the trace engine `generateSteps` are translated
into executable Lean definitions.  The per-token mutable
`Record<string, TokenState>` is modelled as an association list updated
functionally; the two `throw` sites are modelled with `Except`.  Quote
characters appearing inside the human-readable strings of the source are
written with `\x27` escapes.
-/

/-- Embeds `TokenType` from `src/types.ts`. -/
inductive TokenType where
  | OPERAND
  | OPERATOR
  | LEFT_PAREN
  | RIGHT_PAREN
deriving DecidableEq, Repr

/-- Embeds `Token` from `src/types.ts` (fields `id`, `value`, `type`, `priority`). -/
structure Token where
  id : String
  value : String
  type : TokenType
  priority : Nat
deriving DecidableEq, Repr

/-- Embeds `TokenLocation` from `src/types.ts`. -/
inductive TokenLocation where
  | INPUT
  | STACK
  | OUTPUT
  | DISCARDED
deriving DecidableEq, Repr

/-- Embeds `TokenState` from `src/types.ts`: `location` plus `index` (the
position within that location). -/
structure TokenState where
  location : TokenLocation
  index : Nat
deriving DecidableEq, Repr

/-- Embeds `ConversionMode` from `src/types.ts`. -/
inductive ConversionMode where
  | POSTFIX
  | PREFIX
deriving DecidableEq, Repr

/-- Embeds the `Record<string, TokenState>` map `currentTokenStates` of
`generateSteps` as an association list from token id to state.  All keys are
created once (one per token, in token order) and then only updated, exactly
like the source record. -/
abbrev StatesMap := List (String × TokenState)

/-- Embeds `StepSnapshot` from `src/types.ts`.  The source deep-copies
`currentTokenStates` via JSON round-tripping; here the association list is an
immutable value, so storing it is the deep copy. -/
structure StepSnapshot where
  stepIndex : Nat
  description : String
  detailedExplanation : String
  tokenStates : StatesMap
  activeTokenId : Option String
deriving DecidableEq, Repr

/-- Embeds `AlgorithmResult` from `src/types.ts`. -/
structure AlgorithmResult where
  tokens : List Token
  steps : List StepSnapshot
  mode : ConversionMode
deriving DecidableEq, Repr

/-- Embeds the two `throw new Error("Mismatched Parentheses: ...")` sites of
`generateSteps` as the two variants of one error kind. -/
inductive ParenError where
  | MissingLeft
  | MissingRight
deriving DecidableEq, Repr

/-- Renders the exact message text thrown by the source for each variant. -/
def ParenError.message : ParenError → String
  | .MissingLeft => "Mismatched Parentheses: Missing \x27(\x27"
  | .MissingRight => "Mismatched Parentheses: Missing \x27)\x27"

/-! ## Tokenizer

The source tokenizes with the regex `([a-zA-Z0-9.]+|[+\-*/^()])` applied
globally: a maximal run of ASCII letters, digits and dots is one operand
token, each single special character is one token, and every other
character is skipped. -/

/-- Characters matched by the regex class `[a-zA-Z0-9.]`. -/
def isOperandChar (c : Char) : Bool :=
  c.isAlpha || c.isDigit || c = '.'

/-- Characters matched by the regex class `[+\-*/^()]`. -/
def isSpecialChar (c : Char) : Bool :=
  c = '+' || c = '-' || c = '*' || c = '/' || c = '^' || c = '(' || c = ')'

/-- Embeds `expression.match(regex) || []` of `generateSteps`: left-to-right
scan producing maximal operand runs and single special characters, skipping
everything else.  The recursion is driven by a fuel argument (the remaining
input length bounds the number of produced steps, since every step consumes
at least one character); the zero-fuel case is unreachable when the fuel is
initialised to the input length. -/
def rawTokenizeFuel : Nat → List Char → List String
  | _, [] => []
  | 0, _ => []
  | fuel + 1, c :: cs =>
    if isOperandChar c then
      String.mk (c :: cs.takeWhile isOperandChar) :: rawTokenizeFuel fuel (cs.dropWhile isOperandChar)
    else if isSpecialChar c then
      String.mk [c] :: rawTokenizeFuel fuel cs
    else
      rawTokenizeFuel fuel cs

/-- The token strings of an expression, per the source regex scan. -/
def rawTokenize (l : List Char) : List String :=
  rawTokenizeFuel l.length l

/-- Embeds `getPriority` of `src/utils/shuntingYard.ts`. -/
def getPriority (char : String) : Nat :=
  if char = "^" then 3
  else if char = "*" || char = "/" then 2
  else if char = "+" || char = "-" then 1
  else 0

/-- Embeds `isLeftAssociative` of `src/utils/shuntingYard.ts`:
every operator except `^`. -/
def isLeftAssociative (char : String) : Bool :=
  char != "^"

/-- Embeds the token-type classification inside the `rawTokens.map` of
`generateSteps`. -/
def classify (str : String) : TokenType :=
  if str = "+" || str = "-" || str = "*" || str = "/" || str = "^" then TokenType.OPERATOR
  else if str = "(" then TokenType.LEFT_PAREN
  else if str = ")" then TokenType.RIGHT_PAREN
  else TokenType.OPERAND

/-- Embeds the construction of one token object, with the template-literal id
`t-<idx>-<str>` of the source. -/
def mkTok (idx : Nat) (str : String) : Token :=
  { id := "t-" ++ Nat.repr idx ++ "-" ++ str
    value := str
    type := classify str
    priority := getPriority str }

/-- Embeds `rawTokens.map((str, idx) => ...)` with its running index. -/
def mkTokensFrom : Nat → List String → List Token
  | _, [] => []
  | k, s :: ss => mkTok k s :: mkTokensFrom (k + 1) ss

/-- Token objects of one run, ids assigned in sequence order. -/
def mkTokens (raw : List String) : List Token :=
  mkTokensFrom 0 raw

/-- Embeds the parenthesis swap of the PREFIX pre-processing step. -/
def swapParen (t : String) : String :=
  if t = "(" then ")" else if t = ")" then "(" else t

/-- Raw token strings after the mode-dependent pre-processing of
`generateSteps` (PREFIX: reverse and swap parentheses). -/
def rawOf (expression : String) (mode : ConversionMode) : List String :=
  let rawTokens := rawTokenize expression.data
  if mode = ConversionMode.PREFIX then (rawTokens.reverse).map swapParen else rawTokens

/-- Token objects produced by `generateSteps` for an expression and mode. -/
def tokensOf (expression : String) (mode : ConversionMode) : List Token :=
  mkTokens (rawOf expression mode)

/-! ## States map operations -/

/-- Reads a token state from the map; the source record access
`currentTokenStates[id]`.  The default is never reached on token ids of the
run (all token ids are inserted up front). -/
def lookupSt : StatesMap → String → TokenState
  | [], _ => ⟨TokenLocation.INPUT, 0⟩
  | p :: ps, id => if p.1 = id then p.2 else lookupSt ps id

/-- Writes a token state; the source record assignment
`currentTokenStates[id] = v`. -/
def setSt : StatesMap → String → TokenState → StatesMap
  | [], _, _ => []
  | p :: ps, id, v => if p.1 = id then (p.1, v) :: setSt ps id v else p :: setSt ps id v

/-- Embeds `operatorStack.forEach((t, idx) => currentTokenStates[t.id].index = idx)`;
the list argument is the stack in array (bottom-first) order, `k` the running
array index.  Only the `index` field is written, the `location` is kept. -/
def renumberFrom : StatesMap → Nat → List Token → StatesMap
  | m, _, [] => m
  | m, k, t :: ts => renumberFrom (setSt m t.id ⟨(lookupSt m t.id).location, k⟩) (k + 1) ts

/-- The stack-renumbering pass of the source.  The engine keeps the stack
top-first (head = top of stack), while the source array stores it
bottom-first, so the list is reversed before numbering. -/
def renumberStack (stack : List Token) (m : StatesMap) : StatesMap :=
  renumberFrom m 0 stack.reverse

/-- Embeds the initial `tokens.forEach((t, i) => currentTokenStates[t.id] =
{location: INPUT, index: i})` with its running index. -/
def initFrom : Nat → List Token → StatesMap
  | _, [] => []
  | k, t :: ts => (t.id, ⟨TokenLocation.INPUT, k⟩) :: initFrom (k + 1) ts

/-! ## Trace engine

State of the simulation loop: the source keeps four local variables,
`currentTokenStates`, `operatorStack`, `outputQueue` and `steps`.  The stack
is threaded as a separate list argument (head = top); the other three are
bundled in `Eng`. -/

/-- The non-stack mutable locals of `generateSteps`. -/
structure Eng where
  states : StatesMap
  out : List Token
  steps : List StepSnapshot
deriving DecidableEq, Repr

/-- Embeds `recordStep`: appends a snapshot of the current states, with
`stepIndex = steps.length`. -/
def recordStep (e : Eng) (desc expl : String) (active : Option String) : Eng :=
  { e with steps := e.steps ++ [⟨e.steps.length, desc, expl, e.states, active⟩] }

/-- Embeds the `shouldPop` decision of the operator branch (source lines
130-146): pop when the stack top has strictly higher priority, or on an
equal-priority tie when the incoming operator is left-associative (POSTFIX)
respectively right-associative (PREFIX). -/
def shouldPop (mode : ConversionMode) (top token : Token) : Bool :=
  if mode = ConversionMode.POSTFIX then
    if top.priority > token.priority then true
    else if top.priority == token.priority && isLeftAssociative token.value then true
    else false
  else
    if top.priority > token.priority then true
    else if top.priority == token.priority && !(isLeftAssociative token.value) then true
    else false

/-- Embeds the `RIGHT_PAREN` branch of the simulation loop: drain the stack
to the output until a `LEFT_PAREN` is found (then discard both parentheses),
or fail with the missing-open-parenthesis error when the stack empties. -/
def drainParen (rp : Token) : List Token → Eng → Except ParenError (List Token × Eng)
  | [], _ => Except.error ParenError.MissingLeft
  | top :: rest, e =>
    if top.type = TokenType.LEFT_PAREN then
      let states := setSt (setSt e.states top.id ⟨TokenLocation.DISCARDED, 0⟩) rp.id ⟨TokenLocation.DISCARDED, 0⟩
      Except.ok (rest, recordStep ⟨states, e.out, e.steps⟩ "Discard Parentheses" "Matching pair found. Both are discarded." (some rp.id))
    else
      let out := e.out ++ [top]
      let states := renumberStack rest (setSt e.states top.id ⟨TokenLocation.OUTPUT, out.length - 1⟩)
      drainParen rp rest (recordStep ⟨states, out, e.steps⟩ ("Pop " ++ top.value ++ " to Output") ("Inside parentheses, pop \x27" ++ top.value ++ "\x27 to output.") (some top.id))

/-- Embeds the inner `while` loop of the `OPERATOR` branch: pop operators to
the output while the top is not a `LEFT_PAREN` and `shouldPop` holds. -/
def drainOps (mode : ConversionMode) (token : Token) : List Token → Eng → List Token × Eng
  | [], e => ([], e)
  | top :: rest, e =>
    if top.type = TokenType.LEFT_PAREN then (top :: rest, e)
    else if shouldPop mode top token then
      let out := e.out ++ [top]
      let states := renumberStack rest (setSt e.states top.id ⟨TokenLocation.OUTPUT, out.length - 1⟩)
      drainOps mode token rest (recordStep ⟨states, out, e.steps⟩ ("Pop " ++ top.value ++ " to Output") ("\x27" ++ top.value ++ "\x27 has priority/associativity to precede \x27" ++ token.value ++ "\x27.") (some top.id))
    else (top :: rest, e)

/-- Embeds one iteration of the simulation loop of `generateSteps`: the
`Read` snapshot followed by the branch on the token type. -/
def processToken (mode : ConversionMode) (stack : List Token) (e : Eng) (token : Token) : Except ParenError (List Token × Eng) :=
  let e := recordStep e ("Read " ++ token.value) ("Processing token \x27" ++ token.value ++ "\x27.") (some token.id)
  match token.type with
  | TokenType.OPERAND =>
    let out := e.out ++ [token]
    let states := setSt e.states token.id ⟨TokenLocation.OUTPUT, out.length - 1⟩
    Except.ok (stack, recordStep ⟨states, out, e.steps⟩ ("Move " ++ token.value ++ " to Output") "Operands go directly to the result." (some token.id))
  | TokenType.LEFT_PAREN =>
    let stack := token :: stack
    let states := setSt e.states token.id ⟨TokenLocation.STACK, stack.length - 1⟩
    Except.ok (stack, recordStep ⟨states, e.out, e.steps⟩ "Push ( to Stack" "Parentheses wait in the stack until closed." (some token.id))
  | TokenType.RIGHT_PAREN => drainParen token stack e
  | TokenType.OPERATOR =>
    let se := drainOps mode token stack e
    let stack := token :: se.1
    let states := renumberStack stack (setSt se.2.states token.id ⟨TokenLocation.STACK, stack.length - 1⟩)
    Except.ok (stack, recordStep ⟨states, se.2.out, se.2.steps⟩ ("Push " ++ token.value ++ " to Stack") ("Push \x27" ++ token.value ++ "\x27 to stack.") (some token.id))

/-- Embeds `for (const token of tokens) { ... }`. -/
def processAll (mode : ConversionMode) : List Token → Eng → List Token → Except ParenError (List Token × Eng)
  | stack, e, [] => Except.ok (stack, e)
  | stack, e, t :: ts =>
    match processToken mode stack e t with
    | Except.error err => Except.error err
    | Except.ok se => processAll mode se.1 se.2 ts

/-- Embeds the final `while (operatorStack.length > 0)` drain: pop remaining
operators to the output, failing with the missing-close-parenthesis error if
a `LEFT_PAREN` is found. -/
def finalDrain : List Token → Eng → Except ParenError Eng
  | [], e => Except.ok e
  | top :: rest, e =>
    if top.type = TokenType.LEFT_PAREN then Except.error ParenError.MissingRight
    else
      let out := e.out ++ [top]
      let states := renumberStack rest (setSt e.states top.id ⟨TokenLocation.OUTPUT, out.length - 1⟩)
      finalDrain rest (recordStep ⟨states, out, e.steps⟩ ("Pop " ++ top.value ++ " to Output") ("Expression end. Pop remaining \x27" ++ top.value ++ "\x27.") (some top.id))

/-- Description of the `Start` snapshot, mode dependent as in the source. -/
def startDesc (mode : ConversionMode) : String :=
  if mode = ConversionMode.PREFIX then "Start (Prefix Mode)" else "Start"

/-- Detailed explanation of the `Start` snapshot. -/
def startExpl (mode : ConversionMode) : String :=
  if mode = ConversionMode.PREFIX then "Reversed input and swapped parentheses. Reading from Right to Left."
  else "Ready to process the expression."

/-- Engine value after token-state initialisation and the `Start` snapshot. -/
def startEng (tokens : List Token) (mode : ConversionMode) : Eng :=
  recordStep ⟨initFrom 0 tokens, [], []⟩ (startDesc mode) (startExpl mode) none

/-- Embeds `generateSteps` of `src/utils/shuntingYard.ts`: tokenize,
pre-process for PREFIX, run the simulation loop, drain the stack, and return
`{tokens, steps, mode}`; the two `throw` sites become `Except.error`. -/
def generateSteps (expression : String) (mode : ConversionMode := ConversionMode.POSTFIX) : Except ParenError AlgorithmResult :=
  match processAll mode [] (startEng (tokensOf expression mode) mode) (tokensOf expression mode) with
  | Except.error err => Except.error err
  | Except.ok se =>
    match finalDrain se.1 se.2 with
    | Except.error err => Except.error err
    | Except.ok e2 =>
      Except.ok ⟨tokensOf expression mode, (recordStep e2 "Finished" "Conversion complete." none).steps, mode⟩

/-! ## Snapshot zone extraction

These definitions give the reading of a snapshot used by the spec: the
tokens of one zone, and that zone ordered by the recorded `position`. -/

/-- Tokens of the run currently located in zone `z` of snapshot map `m`,
in token order. -/
def zoneTokensOf (tokens : List Token) (m : StatesMap) (z : TokenLocation) : List Token :=
  tokens.filter (fun t => decide ((lookupSt m t.id).location = z))

/-- The `position` values of the tokens in zone `z`. -/
def zonePositions (tokens : List Token) (m : StatesMap) (z : TokenLocation) : List Nat :=
  (zoneTokensOf tokens m z).map (fun t => (lookupSt m t.id).index)

/-- The tokens of zone `z` ordered by their recorded `position`: for each
position `j` in turn, the zone member recorded at `j`. -/
def zoneOrdered (tokens : List Token) (m : StatesMap) (z : TokenLocation) : List Token :=
  let mem := zoneTokensOf tokens m z
  (List.range mem.length).filterMap (fun j => mem.find? (fun t => (lookupSt m t.id).index == j))

/-- The OUTPUT-zone token sequence of the final step of a run, ordered by
position. -/
def finalOutputTokens (r : AlgorithmResult) : List Token :=
  match r.steps.getLast? with
  | some s => zoneOrdered r.tokens s.tokenStates TokenLocation.OUTPUT
  | none => []

/-- The literal values of the final OUTPUT-zone sequence. -/
def finalOutputValues (r : AlgorithmResult) : List String :=
  (finalOutputTokens r).map Token.value

/-! ## Reference implementation

Modelled from the spec: section 8 requires agreement with "an independent
reference implementation" of the Shunting-yard algorithm.  The following
plain (trace-free) implementation is written from the algorithm description
in sections 4.2 and 4.3 of the spec: a stack and an output queue, the
equal-precedence tie broken by associativity (inverted in PREFIX mode), and
the prefix conversion obtained by reversing and paren-swapping the input and
reversing the result. -/

/-- Modelled from the spec: every operator is left-associative except `^`. -/
def refIsLeftAssoc (v : String) : Bool :=
  !(v == "^")

/-- Modelled from the spec: pop while the top has strictly higher precedence,
or equal precedence with the tie-break given by associativity (POSTFIX: pop
when the incoming operator is left-associative; PREFIX: pop when it is
right-associative). -/
def refShouldPop (mode : ConversionMode) (top tok : Token) : Bool :=
  decide (top.priority > tok.priority) ||
    (top.priority == tok.priority &&
      (if mode = ConversionMode.POSTFIX then refIsLeftAssoc tok.value else !(refIsLeftAssoc tok.value)))

/-- Modelled from the spec: the right-parenthesis rule, popping to the output
until the matching left parenthesis, failing when the stack empties. -/
def refDrainParen : List Token → List Token → Option (List Token × List Token)
  | [], _ => none
  | top :: rest, out =>
    if top.type = TokenType.LEFT_PAREN then some (rest, out)
    else refDrainParen rest (out ++ [top])

/-- Modelled from the spec: the operator rule, popping while the top is not a
left parenthesis and the precedence/associativity rule says to pop. -/
def refDrainOps (mode : ConversionMode) (tok : Token) : List Token → List Token → List Token × List Token
  | [], out => ([], out)
  | top :: rest, out =>
    if top.type = TokenType.LEFT_PAREN then (top :: rest, out)
    else if refShouldPop mode top tok then refDrainOps mode tok rest (out ++ [top])
    else (top :: rest, out)

/-- Modelled from the spec: the per-token transition of the reference
Shunting-yard algorithm. -/
def refStep (mode : ConversionMode) (stack out : List Token) (tok : Token) : Option (List Token × List Token) :=
  match tok.type with
  | TokenType.OPERAND => some (stack, out ++ [tok])
  | TokenType.LEFT_PAREN => some (tok :: stack, out)
  | TokenType.RIGHT_PAREN => refDrainParen stack out
  | TokenType.OPERATOR =>
    let so := refDrainOps mode tok stack out
    some (tok :: so.1, so.2)

/-- Modelled from the spec: the reference algorithm over a token sequence. -/
def refAll (mode : ConversionMode) : List Token → List Token → List Token → Option (List Token × List Token)
  | stack, out, [] => some (stack, out)
  | stack, out, t :: ts =>
    match refStep mode stack out t with
    | none => none
    | some so => refAll mode so.1 so.2 ts

/-- Modelled from the spec: the end-of-input drain, failing on a leftover
left parenthesis. -/
def refFinal : List Token → List Token → Option (List Token)
  | [], out => some out
  | top :: rest, out =>
    if top.type = TokenType.LEFT_PAREN then none
    else refFinal rest (out ++ [top])

/-- Modelled from the spec: the full reference run over a token sequence. -/
def refRun (mode : ConversionMode) (toks : List Token) : Option (List Token) :=
  match refAll mode [] [] toks with
  | none => none
  | some so => refFinal so.1 so.2

/-- Modelled from the spec: the canonical postfix conversion of an
expression, as token values. -/
def refPostfixConversion (expression : String) : Option (List String) :=
  (refRun ConversionMode.POSTFIX (mkTokens (rawTokenize expression.data))).map (List.map Token.value)

/-- Modelled from the spec (section 4.3): the canonical prefix conversion —
reverse the tokens, swap parentheses, run with the inverted tie-break, and
reverse the result. -/
def refPrefixConversion (expression : String) : Option (List String) :=
  (refRun ConversionMode.PREFIX (mkTokens (((rawTokenize expression.data).reverse).map swapParen))).map
    (fun l => (l.map Token.value).reverse)

/-! ## Refinement: the trace engine computes the reference conversion

The engine decisions depend only on the stack contents and the token fields,
so each engine loop simulates the corresponding reference loop, forgetting
the snapshot instrumentation. -/

/-- Canonical decimal digit list of a natural number (most significant
first); used to reason about the decimal index inside the generated ids. -/
def decDigits (n : Nat) : List Char :=
  if n < 10 then [Nat.digitChar n]
  else decDigits (n / 10) ++ [Nat.digitChar (n % 10)]
termination_by n
decreasing_by
  exact Nat.div_lt_self (by omega) (by omega)

/-- Numeric value of a decimal digit list. -/
def decVal (l : List Char) : Nat :=
  l.foldl (fun a c => 10 * a + (c.toNat - Char.toNat '0')) 0

/-- Relational invariant tying a states map to the engine stack and output
queue: stack members are recorded at their bottom-first stack position,
output members at their emission position, and conversely every token the
map records in the STACK or OUTPUT zone is a current member of that
structure; stack members are operators or left parentheses, output members
operands or operators. -/
structure MapInv (tokens : List Token) (m : StatesMap) (stack out : List Token) : Prop where
  keys : m.map Prod.fst = tokens.map Token.id
  stack_sub : ∀ t ∈ stack, t ∈ tokens
  out_sub : ∀ t ∈ out, t ∈ tokens
  stack_st : ∀ (i : Nat) (t : Token), stack.reverse[i]? = some t →
    lookupSt m t.id = ⟨TokenLocation.STACK, i⟩
  out_st : ∀ (i : Nat) (t : Token), out[i]? = some t →
    lookupSt m t.id = ⟨TokenLocation.OUTPUT, i⟩
  stack_comp : ∀ t ∈ tokens, (lookupSt m t.id).location = TokenLocation.STACK → t ∈ stack
  out_comp : ∀ t ∈ tokens, (lookupSt m t.id).location = TokenLocation.OUTPUT → t ∈ out
  stack_ty : ∀ t ∈ stack, t.type = TokenType.OPERATOR ∨ t.type = TokenType.LEFT_PAREN
  out_ty : ∀ t ∈ out, t.type = TokenType.OPERAND ∨ t.type = TokenType.OPERATOR

/-- A states map that was recorded while the invariant held for some stack
and output queue. -/
def GoodMap (tokens : List Token) (m : StatesMap) : Prop :=
  ∃ stack out, MapInv tokens m stack out

/-- All recorded snapshots carry good maps. -/
def StepsOK (tokens : List Token) (steps : List StepSnapshot) : Prop :=
  ∀ s ∈ steps, GoodMap tokens s.tokenStates

/-- Default snapshot value used with `List.getD` when reading a recorded
step by its index. -/
def defaultSnap : StepSnapshot := ⟨0, "", "", [], none⟩

/-- The result of a run that is known to succeed (a junk result on error);
used to instantiate universally quantified theorems at concrete inputs. -/
def runOr (expression : String) (mode : ConversionMode) : AlgorithmResult :=
  match generateSteps expression mode with
  | Except.ok r => r
  | Except.error _ => ⟨[], [], mode⟩

/-- Concrete POSTFIX run of `A + B`. -/
def runAplusB : AlgorithmResult := runOr "A + B" ConversionMode.POSTFIX

/-- Concrete PREFIX run of `A + B`. -/
def runAplusBpre : AlgorithmResult := runOr "A + B" ConversionMode.PREFIX

/-- Concrete PREFIX run of `A + B * C`. -/
def runPre2 : AlgorithmResult := runOr "A + B * C" ConversionMode.PREFIX

/-- Concrete POSTFIX run of `( A ) ( B )`. -/
def runTwoPairs : AlgorithmResult := runOr "( A ) ( B )" ConversionMode.POSTFIX

/-- Concrete POSTFIX run of `( A )`. -/
def runParenA : AlgorithmResult := runOr "( A )" ConversionMode.POSTFIX

theorem shouldPop_eq_ref (mode : ConversionMode) (top tok : Token) :
    shouldPop mode top tok = refShouldPop mode top tok := by
  have hlr : isLeftAssociative tok.value = refIsLeftAssoc tok.value := by
    simp [isLeftAssociative, refIsLeftAssoc, bne]
  cases mode <;> unfold shouldPop refShouldPop <;>
    by_cases hgt : top.priority > tok.priority <;>
    by_cases heq : top.priority = tok.priority <;>
    simp [hgt, heq, hlr]

theorem recordStep_out (e : Eng) (d x : String) (a : Option String) :
    (recordStep e d x a).out = e.out := rfl

theorem drainParen_ref (rp : Token) :
    ∀ (stk : List Token) (e : Eng) (stk' : List Token) (e' : Eng),
      drainParen rp stk e = Except.ok (stk', e') →
      refDrainParen stk e.out = some (stk', e'.out) := by
  intro stk
  induction stk with
  | nil => intro e stk' e' h; simp [drainParen] at h
  | cons top rest ih =>
    intro e stk' e' h
    by_cases htop : top.type = TokenType.LEFT_PAREN
    · simp only [drainParen, htop, if_true] at h
      obtain ⟨h1, h2⟩ := Prod.mk.injEq .. ▸ (Except.ok.injEq .. ▸ h)
      simp [refDrainParen, htop, ← h1, ← h2, recordStep_out]
    · simp only [drainParen, htop, if_false, reduceIte] at h
      have := ih _ _ _ h
      simpa [refDrainParen, htop, recordStep_out] using this

theorem drainOps_ref (mode : ConversionMode) (tok : Token) :
    ∀ (stk : List Token) (e : Eng),
      refDrainOps mode tok stk e.out = ((drainOps mode tok stk e).1, (drainOps mode tok stk e).2.out) := by
  intro stk
  induction stk with
  | nil => intro e; simp [drainOps, refDrainOps]
  | cons top rest ih =>
    intro e
    by_cases htop : top.type = TokenType.LEFT_PAREN
    · simp [drainOps, refDrainOps, htop]
    · by_cases hpop : shouldPop mode top tok = true
      · rw [drainOps, refDrainOps, if_neg htop, if_neg htop, if_pos hpop,
          if_pos (shouldPop_eq_ref mode top tok ▸ hpop)]
        have := ih (recordStep ⟨renumberStack rest (setSt e.states top.id ⟨TokenLocation.OUTPUT, (e.out ++ [top]).length - 1⟩), e.out ++ [top], e.steps⟩ ("Pop " ++ top.value ++ " to Output") ("\x27" ++ top.value ++ "\x27 has priority/associativity to precede \x27" ++ tok.value ++ "\x27.") (some top.id))
        simpa [recordStep_out] using this
      · rw [drainOps, refDrainOps, if_neg htop, if_neg htop, if_neg hpop,
          if_neg (shouldPop_eq_ref mode top tok ▸ hpop)]

theorem processToken_ref (mode : ConversionMode) (stack : List Token) (e : Eng) (tok : Token)
    (stk' : List Token) (e' : Eng) (h : processToken mode stack e tok = Except.ok (stk', e')) :
    refStep mode stack e.out tok = some (stk', e'.out) := by
  unfold processToken at h
  unfold refStep
  cases hty : tok.type <;> rw [hty] at h
  · obtain ⟨h1, h2⟩ := Prod.mk.injEq .. ▸ (Except.ok.injEq .. ▸ h)
    simp [← h1, ← h2, recordStep_out]
  · obtain ⟨h1, h2⟩ := Prod.mk.injEq .. ▸ (Except.ok.injEq .. ▸ h)
    have hd := drainOps_ref mode tok stack (recordStep e ("Read " ++ tok.value) ("Processing token \x27" ++ tok.value ++ "\x27.") (some tok.id))
    rw [recordStep_out] at hd
    simp only [← h1, ← h2, recordStep_out, hd]
  · obtain ⟨h1, h2⟩ := Prod.mk.injEq .. ▸ (Except.ok.injEq .. ▸ h)
    simp [← h1, ← h2, recordStep_out]
  · have := drainParen_ref tok stack _ _ _ h
    rw [recordStep_out] at this
    exact this

theorem processAll_ref (mode : ConversionMode) :
    ∀ (toks stack : List Token) (e : Eng) (stk' : List Token) (e' : Eng),
      processAll mode stack e toks = Except.ok (stk', e') →
      refAll mode stack e.out toks = some (stk', e'.out) := by
  intro toks
  induction toks with
  | nil =>
    intro stack e stk' e' h
    simp only [processAll, Except.ok.injEq, Prod.ext_iff] at h
    obtain ⟨h1, h2⟩ := h
    simp [refAll, h1, h2]
  | cons t ts ih =>
    intro stack e stk' e' h
    unfold processAll at h
    cases hp : processToken mode stack e t with
    | error err => rw [hp] at h; exact absurd h (by simp)
    | ok se =>
      rw [hp] at h
      have hr := processToken_ref mode stack e t se.1 se.2 hp
      unfold refAll
      rw [hr]
      exact ih se.1 se.2 stk' e' h

theorem finalDrain_ref :
    ∀ (stk : List Token) (e : Eng) (e' : Eng),
      finalDrain stk e = Except.ok e' → refFinal stk e.out = some e'.out := by
  intro stk
  induction stk with
  | nil =>
    intro e e' h
    simp only [finalDrain, Except.ok.injEq] at h
    simp [refFinal, h]
  | cons top rest ih =>
    intro e e' h
    by_cases htop : top.type = TokenType.LEFT_PAREN
    · simp [finalDrain, htop] at h
    · simp only [finalDrain, htop, if_false, reduceIte] at h
      have := ih _ _ h
      simpa [refFinal, htop, recordStep_out] using this

theorem startEng_out (tokens : List Token) (mode : ConversionMode) :
    (startEng tokens mode).out = [] := rfl

/-- Structural unfolding of a successful `generateSteps` run. -/
theorem generateSteps_ok_elim (expression : String) (mode : ConversionMode) (r : AlgorithmResult)
    (h : generateSteps expression mode = Except.ok r) :
    ∃ (stk1 : List Token) (e1 e2 : Eng),
      processAll mode [] (startEng (tokensOf expression mode) mode) (tokensOf expression mode) = Except.ok (stk1, e1) ∧
      finalDrain stk1 e1 = Except.ok e2 ∧
      r = ⟨tokensOf expression mode, (recordStep e2 "Finished" "Conversion complete." none).steps, mode⟩ := by
  unfold generateSteps at h
  split at h
  · exact absurd h (by simp)
  · next se hp =>
    split at h
    · exact absurd h (by simp)
    · next e2 hf =>
      exact ⟨se.1, se.2, e2, by rw [hp], hf, (Except.ok.inj h).symm⟩

/-- Refinement at the run level: a successful engine run produces, as its
final output queue, exactly the reference conversion of its token sequence. -/
theorem generateSteps_refines (expression : String) (mode : ConversionMode) (r : AlgorithmResult)
    (h : generateSteps expression mode = Except.ok r) :
    ∃ e2 : Eng, refRun mode (tokensOf expression mode) = some e2.out ∧
      r.steps.getLast? = some ⟨e2.steps.length, "Finished", "Conversion complete.", e2.states, none⟩ ∧
      r.tokens = tokensOf expression mode ∧ r.mode = mode := by
  obtain ⟨stk1, e1, e2, hp, hf, hr⟩ := generateSteps_ok_elim expression mode r h
  refine ⟨e2, ?_, ?_, by rw [hr], by rw [hr]⟩
  · have ha := processAll_ref mode (tokensOf expression mode) [] (startEng (tokensOf expression mode) mode) stk1 e1 hp
    rw [startEng_out] at ha
    have hfr := finalDrain_ref stk1 e1 e2 hf
    unfold refRun
    rw [ha]
    exact hfr
  · rw [hr]
    simp [recordStep]

/-! ## Association-list lemmas for the states map -/

theorem keys_setSt (m : StatesMap) (id : String) (v : TokenState) :
    (setSt m id v).map Prod.fst = m.map Prod.fst := by
  induction m with
  | nil => rfl
  | cons p ps ih =>
    by_cases h : p.1 = id <;> simp [setSt, h, ih]

theorem lookupSt_setSt_self (m : StatesMap) (id : String) (v : TokenState)
    (h : id ∈ m.map Prod.fst) : lookupSt (setSt m id v) id = v := by
  induction m with
  | nil => simp at h
  | cons p ps ih =>
    by_cases hp : p.1 = id
    · simp [setSt, lookupSt, hp]
    · have : id ∈ ps.map Prod.fst := by
        rcases List.mem_map.mp h with ⟨q, hq, hq2⟩
        rcases List.mem_cons.mp hq with rfl | hq'
        · exact absurd hq2 hp
        · exact List.mem_map.mpr ⟨q, hq', hq2⟩
      simp [setSt, lookupSt, hp, ih this]

theorem lookupSt_setSt_ne (m : StatesMap) (id id' : String) (v : TokenState)
    (h : id' ≠ id) : lookupSt (setSt m id v) id' = lookupSt m id' := by
  induction m with
  | nil => rfl
  | cons p ps ih =>
    rw [setSt]
    by_cases hp : p.1 = id
    · rw [if_pos hp, lookupSt, lookupSt]
      have hne : ¬ p.1 = id' := by rw [hp]; exact fun hc => h hc.symm
      rw [if_neg hne, if_neg hne, ih]
    · rw [if_neg hp, lookupSt, lookupSt]
      by_cases hp' : p.1 = id'
      · rw [if_pos hp', if_pos hp']
      · rw [if_neg hp', if_neg hp', ih]

theorem keys_renumberFrom (l : List Token) :
    ∀ (m : StatesMap) (k : Nat), (renumberFrom m k l).map Prod.fst = m.map Prod.fst := by
  induction l with
  | nil => intro m k; rfl
  | cons t ts ih =>
    intro m k
    rw [renumberFrom, ih, keys_setSt]

theorem lookupSt_renumberFrom_not (l : List Token) :
    ∀ (m : StatesMap) (k : Nat) (x : String), x ∉ l.map Token.id →
      lookupSt (renumberFrom m k l) x = lookupSt m x := by
  induction l with
  | nil => intro m k x _; rfl
  | cons t ts ih =>
    intro m k x hx
    have hx1 : x ≠ t.id := fun hc => hx (by simp [hc])
    have hx2 : x ∉ ts.map Token.id := fun hc => hx (by simp [hc])
    rw [renumberFrom, ih _ _ _ hx2, lookupSt_setSt_ne _ _ _ _ hx1]

theorem lookupSt_renumberFrom_mem (l : List Token) :
    ∀ (m : StatesMap) (k j : Nat) (t : Token), (l.map Token.id).Nodup →
      l[j]? = some t → t.id ∈ m.map Prod.fst →
      lookupSt (renumberFrom m k l) t.id = ⟨(lookupSt m t.id).location, k + j⟩ := by
  induction l with
  | nil => intro m k j t _ hj _; simp at hj
  | cons u us ih =>
    intro m k j t hnd hj hdom
    rw [List.map_cons, List.nodup_cons] at hnd
    cases j with
    | zero =>
      rw [List.getElem?_cons_zero, Option.some.injEq] at hj
      subst hj
      rw [renumberFrom, lookupSt_renumberFrom_not us _ _ _ hnd.1,
        lookupSt_setSt_self _ _ _ hdom]
      simp
    | succ j' =>
      rw [List.getElem?_cons_succ] at hj
      have htmem : t ∈ us := by
        have := List.getElem?_eq_some.mp hj
        rcases this with ⟨hlt, hget⟩
        exact hget ▸ List.getElem_mem _
      have htu : t.id ≠ u.id := by
        intro hc
        exact hnd.1 (hc ▸ List.mem_map.mpr ⟨t, htmem, rfl⟩)
      rw [renumberFrom]
      have := ih (setSt m u.id ⟨(lookupSt m u.id).location, k⟩) (k + 1) j' t hnd.2 hj
        (by rw [keys_setSt]; exact hdom)
      rw [lookupSt_setSt_ne _ _ _ _ htu] at this
      rw [this]
      congr 1
      omega

theorem keys_initFrom (l : List Token) :
    ∀ k : Nat, (initFrom k l).map Prod.fst = l.map Token.id := by
  induction l with
  | nil => intro k; rfl
  | cons t ts ih => intro k; simp [initFrom, ih]

theorem lookupSt_initFrom_loc (l : List Token) :
    ∀ (k : Nat) (x : String), x ∈ l.map Token.id →
      (lookupSt (initFrom k l) x).location = TokenLocation.INPUT := by
  induction l with
  | nil => intro k x hx; simp at hx
  | cons t ts ih =>
    intro k x hx
    by_cases h : t.id = x
    · simp [initFrom, lookupSt, h]
    · have : x ∈ ts.map Token.id := by
        rcases List.mem_map.mp hx with ⟨q, hq, hq2⟩
        rcases List.mem_cons.mp hq with rfl | hq'
        · exact absurd hq2 h
        · exact List.mem_map.mpr ⟨q, hq', hq2⟩
      simp [initFrom, lookupSt, h, ih _ _ this]

theorem recordStep_states (e : Eng) (d x : String) (a : Option String) :
    (recordStep e d x a).states = e.states := rfl

theorem recordStep_steps (e : Eng) (d x : String) (a : Option String) :
    (recordStep e d x a).steps = e.steps ++ [⟨e.steps.length, d, x, e.states, a⟩] := rfl

/-! ## Distinctness of the generated token ids

The source id `t-<idx>-<str>` embeds the decimal rendering of the index;
since decimal digits contain no dash, ids of distinct indices differ. -/


theorem digitChar_isDigit : ∀ m : Nat, m < 10 → (Nat.digitChar m).isDigit = true := by decide

theorem digitChar_val : ∀ m : Nat, m < 10 → (Nat.digitChar m).toNat - Char.toNat '0' = m := by decide

theorem decDigits_isDigit (n : Nat) : ∀ c ∈ decDigits n, c.isDigit = true := by
  induction n using Nat.strong_induction_on with
  | _ n ih =>
    rw [decDigits]
    by_cases h : n < 10
    · rw [if_pos h]
      intro c hc
      rw [List.mem_singleton] at hc
      exact hc ▸ digitChar_isDigit n h
    · rw [if_neg h]
      intro c hc
      rcases List.mem_append.mp hc with hc | hc
      · exact ih (n / 10) (Nat.div_lt_self (by omega) (by omega)) c hc
      · rw [List.mem_singleton] at hc
        exact hc ▸ digitChar_isDigit (n % 10) (Nat.mod_lt _ (by omega))


theorem decVal_append_digit (a : List Char) (c : Char) :
    decVal (a ++ [c]) = 10 * decVal a + (c.toNat - Char.toNat '0') := by
  unfold decVal
  rw [List.foldl_append]
  rfl

theorem decVal_decDigits (n : Nat) : decVal (decDigits n) = n := by
  induction n using Nat.strong_induction_on with
  | _ n ih =>
    rw [decDigits]
    by_cases h : n < 10
    · rw [if_pos h]
      show 10 * 0 + (((Nat.digitChar n).toNat) - Char.toNat '0') = n
      rw [digitChar_val n h]
      omega
    · rw [if_neg h, decVal_append_digit,
        ih (n / 10) (Nat.div_lt_self (by omega) (by omega)),
        digitChar_val (n % 10) (Nat.mod_lt _ (by omega))]
      omega

theorem toDigitsCore_eq_decDigits :
    ∀ (fuel n : Nat) (ds : List Char), n < fuel →
      Nat.toDigitsCore 10 fuel n ds = decDigits n ++ ds := by
  intro fuel
  induction fuel with
  | zero => intro n ds h; omega
  | succ fuel ih =>
    intro n ds h
    rw [Nat.toDigitsCore]
    by_cases h10 : n / 10 = 0
    · have hn : n < 10 := by
        by_contra hc
        have h1 : 10 ≤ n := Nat.le_of_not_lt hc
        have h2 : 10 / 10 ≤ n / 10 := Nat.div_le_div_right h1
        simp at h2
        omega
      rw [if_pos h10, decDigits, if_pos hn, Nat.mod_eq_of_lt hn]
      rfl
    · have hn : ¬ n < 10 := by
        intro hc
        exact h10 (Nat.div_eq_of_lt hc)
      have hrec : n / 10 < fuel := by
        have h1 : n / 10 < n := Nat.div_lt_self (by omega) (by omega)
        omega
      rw [if_neg h10, ih (n / 10) _ hrec]
      conv_rhs => rw [decDigits]
      rw [if_neg hn, List.append_assoc]
      rfl

theorem repr_data (n : Nat) : (Nat.repr n).data = decDigits n := by
  show (Nat.toDigits 10 n).asString.data = decDigits n
  rw [Nat.toDigits, toDigitsCore_eq_decDigits (n + 1) n [] (Nat.lt_succ_self n), List.append_nil]
  rfl

theorem repr_inj (n m : Nat) (h : (Nat.repr n).data = (Nat.repr m).data) : n = m := by
  rw [repr_data, repr_data] at h
  have := congrArg decVal h
  rwa [decVal_decDigits, decVal_decDigits] at this

theorem repr_no_dash (n : Nat) : ∀ c ∈ (Nat.repr n).data, c ≠ '-' := by
  rw [repr_data]
  intro c hc hdash
  have := decDigits_isDigit n c hc
  rw [hdash] at this
  exact absurd this (by decide)

theorem append_dash_inj :
    ∀ (a b s t : List Char), (∀ c ∈ a, c ≠ '-') → (∀ c ∈ b, c ≠ '-') →
      a ++ '-' :: s = b ++ '-' :: t → a = b ∧ s = t := by
  intro a
  induction a with
  | nil =>
    intro b s t _ hb h
    cases b with
    | nil => simpa using h
    | cons y ys =>
      rw [List.nil_append, List.cons_append, List.cons.injEq] at h
      exact absurd h.1.symm (hb y (List.mem_cons_self y ys))
  | cons x xs ih =>
    intro b s t ha hb h
    cases b with
    | nil =>
      rw [List.nil_append, List.cons_append, List.cons.injEq] at h
      exact absurd h.1 (ha x (List.mem_cons_self x xs))
    | cons y ys =>
      rw [List.cons_append, List.cons_append, List.cons.injEq] at h
      have := ih ys s t (fun c hc => ha c (List.mem_cons_of_mem x hc))
        (fun c hc => hb c (List.mem_cons_of_mem y hc)) h.2
      exact ⟨by rw [h.1, this.1], this.2⟩

theorem mkTok_id_inj (i j : Nat) (s s' : String) (h : (mkTok i s).id = (mkTok j s').id) :
    i = j := by
  have hd := congrArg String.data h
  simp only [mkTok, String.data_append] at hd
  have hd2 : (Nat.repr i).data ++ '-' :: s.data = (Nat.repr j).data ++ '-' :: s'.data := by
    simp only [List.append_assoc, List.cons_append, List.nil_append, List.singleton_append,
      List.cons.injEq, true_and] at hd
    exact hd
  exact repr_inj i j (append_dash_inj _ _ _ _ (repr_no_dash i) (repr_no_dash j) hd2).1

theorem mkTokensFrom_shape (l : List String) :
    ∀ (k : Nat) (t : Token), t ∈ mkTokensFrom k l → ∃ k' s', k ≤ k' ∧ t = mkTok k' s' := by
  induction l with
  | nil => intro k t ht; simp [mkTokensFrom] at ht
  | cons s ss ih =>
    intro k t ht
    rw [mkTokensFrom] at ht
    rcases List.mem_cons.mp ht with rfl | ht'
    · exact ⟨k, s, Nat.le_refl k, rfl⟩
    · obtain ⟨k', s', hk, hts⟩ := ih (k + 1) t ht'
      exact ⟨k', s', by omega, hts⟩

theorem mkTokensFrom_ids_nodup (l : List String) :
    ∀ k : Nat, ((mkTokensFrom k l).map Token.id).Nodup := by
  induction l with
  | nil => intro k; simp [mkTokensFrom]
  | cons s ss ih =>
    intro k
    rw [mkTokensFrom, List.map_cons, List.nodup_cons]
    refine ⟨?_, ih (k + 1)⟩
    intro hmem
    rcases List.mem_map.mp hmem with ⟨t, ht, hid⟩
    obtain ⟨k', s', hk, rfl⟩ := mkTokensFrom_shape ss (k + 1) t ht
    have := mkTok_id_inj k' k s' s hid
    omega

theorem mkTokens_ids_nodup (raw : List String) : ((mkTokens raw).map Token.id).Nodup :=
  mkTokensFrom_ids_nodup raw 0

theorem tokensOf_ids_nodup (expression : String) (mode : ConversionMode) :
    ((tokensOf expression mode).map Token.id).Nodup :=
  mkTokens_ids_nodup _

/-! ## The state invariant

Relational invariant tying a states map to the engine stack and output
queue: stack members are recorded at their bottom-first stack position,
output members at their emission position, and conversely every token
recorded in the STACK or OUTPUT zone is a current member of that structure.
Stack members are operators or left parentheses, output members operands or
operators. -/


theorem mem_rev_getElem {stack : List Token} {t : Token} (h : t ∈ stack) :
    ∃ i : Nat, stack.reverse[i]? = some t :=
  List.mem_iff_getElem?.mp (List.mem_reverse.mpr h)

theorem MapInv.stack_loc {tokens m stack out} (inv : MapInv tokens m stack out)
    {t : Token} (ht : t ∈ stack) : (lookupSt m t.id).location = TokenLocation.STACK := by
  obtain ⟨i, hi⟩ := mem_rev_getElem ht
  rw [inv.stack_st i t hi]

theorem MapInv.out_loc {tokens m stack out} (inv : MapInv tokens m stack out)
    {t : Token} (ht : t ∈ out) : (lookupSt m t.id).location = TokenLocation.OUTPUT := by
  obtain ⟨i, hi⟩ := List.mem_iff_getElem?.mp ht
  rw [inv.out_st i t hi]

theorem MapInv.id_notin_stack {tokens m stack out} (inv : MapInv tokens m stack out)
    {x : String} (hx : (lookupSt m x).location ≠ TokenLocation.STACK) :
    x ∉ (stack.reverse).map Token.id := by
  intro hmem
  rcases List.mem_map.mp hmem with ⟨u, hu, rfl⟩
  exact hx (inv.stack_loc (List.mem_reverse.mp hu))

theorem MapInv.id_notin_out {tokens m stack out} (inv : MapInv tokens m stack out)
    {x : String} (hx : (lookupSt m x).location ≠ TokenLocation.OUTPUT) :
    x ∉ out.map Token.id := by
  intro hmem
  rcases List.mem_map.mp hmem with ⟨u, hu, rfl⟩
  exact hx (inv.out_loc hu)

theorem MapInv.dom {tokens m stack out} (inv : MapInv tokens m stack out)
    {t : Token} (ht : t ∈ tokens) : t.id ∈ m.map Prod.fst := by
  rw [inv.keys]
  exact List.mem_map.mpr ⟨t, ht, rfl⟩

theorem MapInv.stack_rev_ids_nodup {tokens m stack out} (inv : MapInv tokens m stack out) :
    ((stack.reverse).map Token.id).Nodup := by
  rw [List.nodup_iff_getElem?_ne_getElem?]
  intro i j hij hjlen
  rw [List.length_map] at hjlen
  have hilen : i < stack.reverse.length := by omega
  have ht : stack.reverse[i]? = some (stack.reverse[i]) := List.getElem?_eq_getElem hilen
  have hu : stack.reverse[j]? = some (stack.reverse[j]) := List.getElem?_eq_getElem hjlen
  rw [List.getElem?_map, List.getElem?_map, ht, hu]
  intro hc0
  have hc : (stack.reverse[i]).id = (stack.reverse[j]).id := by simpa using hc0
  have h1 := inv.stack_st i _ ht
  have h2 := inv.stack_st j _ hu
  rw [hc, h2] at h1
  have : j = i := congrArg TokenState.index h1
  omega

theorem MapInv.out_ids_nodup {tokens m stack out} (inv : MapInv tokens m stack out) :
    (out.map Token.id).Nodup := by
  rw [List.nodup_iff_getElem?_ne_getElem?]
  intro i j hij hjlen
  rw [List.length_map] at hjlen
  have hilen : i < out.length := by omega
  have ht : out[i]? = some (out[i]) := List.getElem?_eq_getElem hilen
  have hu : out[j]? = some (out[j]) := List.getElem?_eq_getElem hjlen
  rw [List.getElem?_map, List.getElem?_map, ht, hu]
  intro hc0
  have hc : (out[i]).id = (out[j]).id := by simpa using hc0
  have h1 := inv.out_st i _ ht
  have h2 := inv.out_st j _ hu
  rw [hc, h2] at h1
  have : j = i := congrArg TokenState.index h1
  omega

theorem id_inj_of_nodup {tokens : List Token} (hnd : (tokens.map Token.id).Nodup)
    {t u : Token} (ht : t ∈ tokens) (hu : u ∈ tokens) (h : t.id = u.id) : t = u :=
  List.inj_on_of_nodup_map hnd ht hu h

/-! ## Preservation of the invariant by the engine operations -/

theorem popToOutput_inv {tokens : List Token} {m : StatesMap} {top : Token} {rest out : List Token}
    (hnd : (tokens.map Token.id).Nodup)
    (inv : MapInv tokens m (top :: rest) out)
    (hty : top.type ≠ TokenType.LEFT_PAREN) :
    MapInv tokens (renumberStack rest (setSt m top.id ⟨TokenLocation.OUTPUT, (out ++ [top]).length - 1⟩))
      rest (out ++ [top]) := by
  have hlen : (out ++ [top]).length - 1 = out.length := by simp
  rw [hlen]
  have htopmem : top ∈ tokens := inv.stack_sub top (List.mem_cons_self top rest)
  have hrevsplit : (top :: rest).reverse = rest.reverse ++ [top] := by simp
  have hrevnd : (((rest.reverse).map Token.id) ++ [top.id]).Nodup := by
    have h0 := inv.stack_rev_ids_nodup
    rw [hrevsplit, List.map_append] at h0
    simpa using h0
  have hrestnd : ((rest.reverse).map Token.id).Nodup := hrevnd.of_append_left
  have htopnotin : top.id ∉ (rest.reverse).map Token.id := by
    intro hmem
    have := List.disjoint_of_nodup_append hrevnd hmem
    simp at this
  have hdomtop : top.id ∈ m.map Prod.fst := inv.dom htopmem
  have hm2top : lookupSt (renumberStack rest (setSt m top.id ⟨TokenLocation.OUTPUT, out.length⟩)) top.id
      = ⟨TokenLocation.OUTPUT, out.length⟩ := by
    rw [renumberStack, lookupSt_renumberFrom_not _ _ _ _ htopnotin,
      lookupSt_setSt_self _ _ _ hdomtop]
  have hstack_old : ∀ (i : Nat) (u : Token), (rest.reverse)[i]? = some u →
      lookupSt m u.id = ⟨TokenLocation.STACK, i⟩ := by
    intro i u hu
    apply inv.stack_st
    rw [hrevsplit]
    obtain ⟨hlt, _⟩ := List.getElem?_eq_some_iff.mp hu
    rw [List.getElem?_append_left hlt]
    exact hu
  have hm2rest : ∀ (i : Nat) (u : Token), (rest.reverse)[i]? = some u →
      lookupSt (renumberStack rest (setSt m top.id ⟨TokenLocation.OUTPUT, out.length⟩)) u.id
        = ⟨TokenLocation.STACK, i⟩ := by
    intro i u hu
    have humem : u ∈ rest := List.mem_reverse.mp (List.getElem?_mem hu)
    have hid_ne : u.id ≠ top.id := by
      intro hc
      exact htopnotin (hc ▸ List.mem_map.mpr ⟨u, List.mem_reverse.mpr humem, rfl⟩)
    have hdomu : u.id ∈ (setSt m top.id ⟨TokenLocation.OUTPUT, out.length⟩).map Prod.fst := by
      rw [keys_setSt]
      exact inv.dom (inv.stack_sub u (List.mem_cons_of_mem top humem))
    rw [renumberStack, lookupSt_renumberFrom_mem (rest.reverse) _ 0 i u hrestnd hu hdomu,
      lookupSt_setSt_ne _ _ _ _ hid_ne, hstack_old i u hu]
    simp
  have hunchanged : ∀ x : String, x ≠ top.id → x ∉ (rest.reverse).map Token.id →
      lookupSt (renumberStack rest (setSt m top.id ⟨TokenLocation.OUTPUT, out.length⟩)) x
        = lookupSt m x := by
    intro x hx1 hx2
    rw [renumberStack, lookupSt_renumberFrom_not _ _ _ _ hx2, lookupSt_setSt_ne _ _ _ _ hx1]
  have hrest_in_stack : ∀ x : String, x ∈ (rest.reverse).map Token.id →
      x ∈ ((top :: rest).reverse).map Token.id := by
    intro x hx
    rw [hrevsplit, List.map_append]
    exact List.mem_append.mpr (Or.inl hx)
  have hout_unchanged : ∀ u ∈ out,
      lookupSt (renumberStack rest (setSt m top.id ⟨TokenLocation.OUTPUT, out.length⟩)) u.id
        = lookupSt m u.id := by
    intro u hu
    have hloc := inv.out_loc hu
    apply hunchanged
    · intro hc
      have hst := inv.stack_loc (List.mem_cons_self top rest)
      rw [← hc, hloc] at hst
      exact absurd hst (by decide)
    · intro hc
      exact inv.id_notin_stack (by rw [hloc]; decide) (hrest_in_stack _ hc)
  refine ⟨?_, ?_, ?_, ?_, ?_, ?_, ?_, ?_, ?_⟩
  · rw [renumberStack, keys_renumberFrom, keys_setSt]
    exact inv.keys
  · exact fun t ht => inv.stack_sub t (List.mem_cons_of_mem top ht)
  · intro t ht
    rcases List.mem_append.mp ht with ht | ht
    · exact inv.out_sub t ht
    · rw [List.mem_singleton] at ht
      exact ht ▸ htopmem
  · exact hm2rest
  · intro i t hi
    by_cases hilt : i < out.length
    · rw [List.getElem?_append_left hilt] at hi
      rw [hout_unchanged t (List.getElem?_mem hi), inv.out_st i t hi]
    · have hieq : i = out.length := by
        obtain ⟨hlt, _⟩ := List.getElem?_eq_some_iff.mp hi
        rw [List.length_append, List.length_singleton] at hlt
        omega
      subst hieq
      rw [List.getElem?_concat_length, Option.some.injEq] at hi
      subst hi
      exact hm2top
  · intro t ht hloc
    by_cases hc1 : t.id = top.id
    · rw [hc1, hm2top] at hloc
      simp at hloc
    · by_cases hc2 : t.id ∈ (rest.reverse).map Token.id
      · rcases List.mem_map.mp hc2 with ⟨u, humem, huid⟩
        have hu2 : u ∈ rest := List.mem_reverse.mp humem
        have : t = u := id_inj_of_nodup hnd ht (inv.stack_sub u (List.mem_cons_of_mem top hu2)) huid.symm
        exact this ▸ hu2
      · rw [hunchanged t.id hc1 hc2] at hloc
        have := inv.stack_comp t ht hloc
        rcases List.mem_cons.mp this with rfl | hmem
        · exact absurd rfl hc1
        · exact hmem
  · intro t ht hloc
    by_cases hc1 : t.id = top.id
    · have : t = top := id_inj_of_nodup hnd ht htopmem hc1
      exact this ▸ List.mem_append.mpr (Or.inr (List.mem_singleton.mpr rfl))
    · by_cases hc2 : t.id ∈ (rest.reverse).map Token.id
      · rcases List.mem_map.mp hc2 with ⟨u, humem, huid⟩
        obtain ⟨i, hi⟩ := List.mem_iff_getElem?.mp humem
        have := hm2rest i u hi
        rw [huid] at this
        rw [this] at hloc
        simp at hloc
      · rw [hunchanged t.id hc1 hc2] at hloc
        exact List.mem_append.mpr (Or.inl (inv.out_comp t ht hloc))
  · exact fun t ht => inv.stack_ty t (List.mem_cons_of_mem top ht)
  · intro t ht
    rcases List.mem_append.mp ht with ht | ht
    · exact inv.out_ty t ht
    · rw [List.mem_singleton] at ht
      subst ht
      rcases inv.stack_ty t (List.mem_cons_self t rest) with h | h
      · exact Or.inr h
      · exact absurd h hty

theorem popToOutput_other {tokens : List Token} {m : StatesMap} {top : Token} {rest out : List Token}
    (inv : MapInv tokens m (top :: rest) out) (x : String)
    (hx : (lookupSt m x).location ≠ TokenLocation.STACK) :
    lookupSt (renumberStack rest (setSt m top.id ⟨TokenLocation.OUTPUT, (out ++ [top]).length - 1⟩)) x
      = lookupSt m x := by
  have hx1 : x ≠ top.id := by
    intro hc
    exact hx (hc ▸ inv.stack_loc (List.mem_cons_self top rest))
  have hx2 : x ∉ (rest.reverse).map Token.id := by
    intro hc
    apply inv.id_notin_stack hx
    rcases List.mem_map.mp hc with ⟨u, hu, rfl⟩
    exact List.mem_map.mpr ⟨u, by simp only [List.reverse_cons]; exact List.mem_append.mpr (Or.inl hu), rfl⟩
  rw [renumberStack, lookupSt_renumberFrom_not _ _ _ _ hx2, lookupSt_setSt_ne _ _ _ _ hx1]

theorem operand_move_inv {tokens : List Token} {m : StatesMap} {tok : Token} {stack out : List Token}
    (hnd : (tokens.map Token.id).Nodup)
    (inv : MapInv tokens m stack out) (htok : tok ∈ tokens)
    (hloc : (lookupSt m tok.id).location = TokenLocation.INPUT)
    (hty : tok.type = TokenType.OPERAND) :
    MapInv tokens (setSt m tok.id ⟨TokenLocation.OUTPUT, (out ++ [tok]).length - 1⟩)
      stack (out ++ [tok]) := by
  have hlen : (out ++ [tok]).length - 1 = out.length := by simp
  rw [hlen]
  have hstack_ne : ∀ u ∈ stack, u.id ≠ tok.id := by
    intro u hu hc
    have := inv.stack_loc hu
    rw [hc, hloc] at this
    exact absurd this (by decide)
  have hout_ne : ∀ u ∈ out, u.id ≠ tok.id := by
    intro u hu hc
    have := inv.out_loc hu
    rw [hc, hloc] at this
    exact absurd this (by decide)
  have hself : lookupSt (setSt m tok.id ⟨TokenLocation.OUTPUT, out.length⟩) tok.id
      = ⟨TokenLocation.OUTPUT, out.length⟩ :=
    lookupSt_setSt_self _ _ _ (inv.dom htok)
  refine ⟨?_, inv.stack_sub, ?_, ?_, ?_, ?_, ?_, inv.stack_ty, ?_⟩
  · rw [keys_setSt]; exact inv.keys
  · intro t ht
    rcases List.mem_append.mp ht with ht | ht
    · exact inv.out_sub t ht
    · rw [List.mem_singleton] at ht
      exact ht ▸ htok
  · intro i u hu
    have humem : u ∈ stack := List.mem_reverse.mp (List.getElem?_mem hu)
    rw [lookupSt_setSt_ne _ _ _ _ (hstack_ne u humem)]
    exact inv.stack_st i u hu
  · intro i u hu
    by_cases hilt : i < out.length
    · rw [List.getElem?_append_left hilt] at hu
      rw [lookupSt_setSt_ne _ _ _ _ (hout_ne u (List.getElem?_mem hu))]
      exact inv.out_st i u hu
    · have hieq : i = out.length := by
        obtain ⟨hlt, _⟩ := List.getElem?_eq_some_iff.mp hu
        rw [List.length_append, List.length_singleton] at hlt
        omega
      subst hieq
      rw [List.getElem?_concat_length, Option.some.injEq] at hu
      subst hu
      exact hself
  · intro t ht hl
    by_cases hc : t.id = tok.id
    · rw [hc, hself] at hl
      simp at hl
    · rw [lookupSt_setSt_ne _ _ _ _ hc] at hl
      exact inv.stack_comp t ht hl
  · intro t ht hl
    by_cases hc : t.id = tok.id
    · have : t = tok := id_inj_of_nodup hnd ht htok hc
      exact this ▸ List.mem_append.mpr (Or.inr (List.mem_singleton.mpr rfl))
    · rw [lookupSt_setSt_ne _ _ _ _ hc] at hl
      exact List.mem_append.mpr (Or.inl (inv.out_comp t ht hl))
  · intro t ht
    rcases List.mem_append.mp ht with ht | ht
    · exact inv.out_ty t ht
    · rw [List.mem_singleton] at ht
      exact Or.inl (ht ▸ hty)

theorem lparen_push_inv {tokens : List Token} {m : StatesMap} {tok : Token} {stack out : List Token}
    (hnd : (tokens.map Token.id).Nodup)
    (inv : MapInv tokens m stack out) (htok : tok ∈ tokens)
    (hloc : (lookupSt m tok.id).location = TokenLocation.INPUT)
    (hty : tok.type = TokenType.LEFT_PAREN) :
    MapInv tokens (setSt m tok.id ⟨TokenLocation.STACK, (tok :: stack).length - 1⟩)
      (tok :: stack) out := by
  have hlen : (tok :: stack).length - 1 = stack.length := by simp
  rw [hlen]
  have hstack_ne : ∀ u ∈ stack, u.id ≠ tok.id := by
    intro u hu hc
    have := inv.stack_loc hu
    rw [hc, hloc] at this
    exact absurd this (by decide)
  have hout_ne : ∀ u ∈ out, u.id ≠ tok.id := by
    intro u hu hc
    have := inv.out_loc hu
    rw [hc, hloc] at this
    exact absurd this (by decide)
  have hself : lookupSt (setSt m tok.id ⟨TokenLocation.STACK, stack.length⟩) tok.id
      = ⟨TokenLocation.STACK, stack.length⟩ :=
    lookupSt_setSt_self _ _ _ (inv.dom htok)
  refine ⟨?_, ?_, inv.out_sub, ?_, ?_, ?_, ?_, ?_, inv.out_ty⟩
  · rw [keys_setSt]; exact inv.keys
  · intro t ht
    rcases List.mem_cons.mp ht with rfl | ht
    · exact htok
    · exact inv.stack_sub t ht
  · intro i u hu
    rw [List.reverse_cons] at hu
    by_cases hilt : i < stack.reverse.length
    · rw [List.getElem?_append_left hilt] at hu
      have humem : u ∈ stack := List.mem_reverse.mp (List.getElem?_mem hu)
      rw [lookupSt_setSt_ne _ _ _ _ (hstack_ne u humem)]
      exact inv.stack_st i u hu
    · have hieq : i = stack.length := by
        obtain ⟨hlt, _⟩ := List.getElem?_eq_some_iff.mp hu
        rw [List.length_append, List.length_singleton, List.length_reverse] at hlt
        rw [List.length_reverse] at hilt
        omega
      subst hieq
      rw [← List.length_reverse stack, List.getElem?_concat_length, Option.some.injEq] at hu
      subst hu
      exact hself
  · intro i u hu
    rw [lookupSt_setSt_ne _ _ _ _ (hout_ne u (List.getElem?_mem hu))]
    exact inv.out_st i u hu
  · intro t ht hl
    by_cases hc : t.id = tok.id
    · have : t = tok := id_inj_of_nodup hnd ht htok hc
      exact this ▸ List.mem_cons_self tok stack
    · rw [lookupSt_setSt_ne _ _ _ _ hc] at hl
      exact List.mem_cons_of_mem tok (inv.stack_comp t ht hl)
  · intro t ht hl
    by_cases hc : t.id = tok.id
    · rw [hc, hself] at hl
      simp at hl
    · rw [lookupSt_setSt_ne _ _ _ _ hc] at hl
      exact inv.out_comp t ht hl
  · intro t ht
    rcases List.mem_cons.mp ht with rfl | ht
    · exact Or.inr hty
    · exact inv.stack_ty t ht

theorem op_push_inv {tokens : List Token} {m : StatesMap} {tok : Token} {stack out : List Token}
    (hnd : (tokens.map Token.id).Nodup)
    (inv : MapInv tokens m stack out) (htok : tok ∈ tokens)
    (hloc : (lookupSt m tok.id).location = TokenLocation.INPUT)
    (hty : tok.type = TokenType.OPERATOR) :
    MapInv tokens
      (renumberStack (tok :: stack) (setSt m tok.id ⟨TokenLocation.STACK, (tok :: stack).length - 1⟩))
      (tok :: stack) out := by
  have hlen : (tok :: stack).length - 1 = stack.length := by simp
  rw [hlen]
  have hstack_ne : ∀ u ∈ stack, u.id ≠ tok.id := by
    intro u hu hc
    have := inv.stack_loc hu
    rw [hc, hloc] at this
    exact absurd this (by decide)
  have hout_ne : ∀ u ∈ out, u.id ≠ tok.id := by
    intro u hu hc
    have := inv.out_loc hu
    rw [hc, hloc] at this
    exact absurd this (by decide)
  have htok_notin : tok.id ∉ (stack.reverse).map Token.id := by
    intro hc
    rcases List.mem_map.mp hc with ⟨u, hu, huid⟩
    exact hstack_ne u (List.mem_reverse.mp hu) huid
  have hnewnd : ((stack.reverse ++ [tok]).map Token.id).Nodup := by
    rw [List.map_append]
    refine List.Nodup.append inv.stack_rev_ids_nodup (List.nodup_singleton _) ?_
    intro x hx1 hx2
    rw [List.map_singleton, List.mem_singleton] at hx2
    subst hx2
    exact htok_notin hx1
  have hrev : (tok :: stack).reverse = stack.reverse ++ [tok] := by simp
  have hm1self : lookupSt (setSt m tok.id ⟨TokenLocation.STACK, stack.length⟩) tok.id
      = ⟨TokenLocation.STACK, stack.length⟩ :=
    lookupSt_setSt_self _ _ _ (inv.dom htok)
  have hm2 : ∀ (i : Nat) (u : Token), (stack.reverse ++ [tok])[i]? = some u →
      lookupSt (renumberStack (tok :: stack) (setSt m tok.id ⟨TokenLocation.STACK, stack.length⟩)) u.id
        = ⟨TokenLocation.STACK, i⟩ := by
    intro i u hu
    have hdom : u.id ∈ (setSt m tok.id ⟨TokenLocation.STACK, stack.length⟩).map Prod.fst := by
      rw [keys_setSt]
      rcases List.mem_append.mp (List.getElem?_mem hu) with h | h
      · exact inv.dom (inv.stack_sub u (List.mem_reverse.mp h))
      · rw [List.mem_singleton] at h
        exact inv.dom (h ▸ htok)
    rw [renumberStack, hrev,
      lookupSt_renumberFrom_mem (stack.reverse ++ [tok]) _ 0 i u hnewnd hu hdom]
    by_cases hilt : i < stack.reverse.length
    · rw [List.getElem?_append_left hilt] at hu
      have humem : u ∈ stack := List.mem_reverse.mp (List.getElem?_mem hu)
      rw [lookupSt_setSt_ne _ _ _ _ (hstack_ne u humem), inv.stack_st i u hu]
      simp
    · have hieq : i = stack.length := by
        obtain ⟨hlt, _⟩ := List.getElem?_eq_some_iff.mp hu
        rw [List.length_append, List.length_singleton, List.length_reverse] at hlt
        rw [List.length_reverse] at hilt
        omega
      subst hieq
      rw [← List.length_reverse stack, List.getElem?_concat_length, Option.some.injEq] at hu
      subst hu
      rw [hm1self]
      simp
  have hunchanged : ∀ x : String, x ≠ tok.id → x ∉ (stack.reverse).map Token.id →
      lookupSt (renumberStack (tok :: stack) (setSt m tok.id ⟨TokenLocation.STACK, stack.length⟩)) x
        = lookupSt m x := by
    intro x hx1 hx2
    have hx3 : x ∉ (stack.reverse ++ [tok]).map Token.id := by
      rw [List.map_append]
      intro hc
      rcases List.mem_append.mp hc with h | h
      · exact hx2 h
      · rw [List.map_singleton, List.mem_singleton] at h
        exact hx1 h
    rw [renumberStack, hrev, lookupSt_renumberFrom_not _ _ _ _ hx3,
      lookupSt_setSt_ne _ _ _ _ hx1]
  have hout_unchanged : ∀ u ∈ out,
      lookupSt (renumberStack (tok :: stack) (setSt m tok.id ⟨TokenLocation.STACK, stack.length⟩)) u.id
        = lookupSt m u.id := by
    intro u hu
    refine hunchanged u.id (hout_ne u hu) ?_
    have hloc2 := inv.out_loc hu
    exact inv.id_notin_stack (by rw [hloc2]; decide)
  refine ⟨?_, ?_, inv.out_sub, ?_, ?_, ?_, ?_, ?_, inv.out_ty⟩
  · rw [renumberStack, keys_renumberFrom, keys_setSt]
    exact inv.keys
  · intro t ht
    rcases List.mem_cons.mp ht with rfl | ht
    · exact htok
    · exact inv.stack_sub t ht
  · intro i u hu
    rw [hrev] at hu
    exact hm2 i u hu
  · intro i u hu
    rw [hout_unchanged u (List.getElem?_mem hu)]
    exact inv.out_st i u hu
  · intro t ht hl
    by_cases hc1 : t.id = tok.id
    · have : t = tok := id_inj_of_nodup hnd ht htok hc1
      exact this ▸ List.mem_cons_self tok stack
    · by_cases hc2 : t.id ∈ (stack.reverse).map Token.id
      · rcases List.mem_map.mp hc2 with ⟨u, hu, huid⟩
        have : t = u := id_inj_of_nodup hnd ht (inv.stack_sub u (List.mem_reverse.mp hu)) huid.symm
        exact this ▸ List.mem_cons_of_mem tok (List.mem_reverse.mp hu)
      · rw [hunchanged t.id hc1 hc2] at hl
        exact List.mem_cons_of_mem tok (inv.stack_comp t ht hl)
  · intro t ht hl
    by_cases hc1 : t.id = tok.id
    · rw [hc1] at hl
      have := hm2 stack.length tok (by rw [← List.length_reverse stack]; exact List.getElem?_concat_length _ _)
      rw [this] at hl
      simp at hl
    · by_cases hc2 : t.id ∈ (stack.reverse).map Token.id
      · rcases List.mem_map.mp hc2 with ⟨u, hu, huid⟩
        obtain ⟨i, hi⟩ := List.mem_iff_getElem?.mp hu
        obtain ⟨hlt, _⟩ := List.getElem?_eq_some_iff.mp hi
        have := hm2 i u (by rw [List.getElem?_append_left hlt]; exact hi)
        rw [huid] at this
        rw [this] at hl
        simp at hl
      · rw [hunchanged t.id hc1 hc2] at hl
        exact inv.out_comp t ht hl
  · intro t ht
    rcases List.mem_cons.mp ht with rfl | ht
    · exact Or.inl hty
    · exact inv.stack_ty t ht

theorem discard_inv {tokens : List Token} {m : StatesMap} {top rp : Token} {rest out : List Token}
    (hnd : (tokens.map Token.id).Nodup)
    (inv : MapInv tokens m (top :: rest) out)
    (hrp : rp ∈ tokens)
    (hrploc : (lookupSt m rp.id).location = TokenLocation.INPUT) :
    MapInv tokens (setSt (setSt m top.id ⟨TokenLocation.DISCARDED, 0⟩) rp.id ⟨TokenLocation.DISCARDED, 0⟩)
      rest out := by
  have htopmem : top ∈ tokens := inv.stack_sub top (List.mem_cons_self top rest)
  have hrp_ne_top : rp.id ≠ top.id := by
    intro hc
    have := inv.stack_loc (List.mem_cons_self top rest)
    rw [← hc, hrploc] at this
    exact absurd this (by decide)
  have hrevsplit : (top :: rest).reverse = rest.reverse ++ [top] := by simp
  have htopnotin : top.id ∉ (rest.reverse).map Token.id := by
    have h0 := inv.stack_rev_ids_nodup
    rw [hrevsplit, List.map_append] at h0
    intro hmem
    have := List.disjoint_of_nodup_append h0 hmem
    simp at this
  have hunchanged : ∀ x : String, x ≠ top.id → x ≠ rp.id →
      lookupSt (setSt (setSt m top.id ⟨TokenLocation.DISCARDED, 0⟩) rp.id ⟨TokenLocation.DISCARDED, 0⟩) x
        = lookupSt m x := by
    intro x hx1 hx2
    rw [lookupSt_setSt_ne _ _ _ _ hx2, lookupSt_setSt_ne _ _ _ _ hx1]
  have hnewtop : lookupSt (setSt (setSt m top.id ⟨TokenLocation.DISCARDED, 0⟩) rp.id ⟨TokenLocation.DISCARDED, 0⟩) top.id
      = ⟨TokenLocation.DISCARDED, 0⟩ := by
    rw [lookupSt_setSt_ne _ _ _ _ (fun hc => hrp_ne_top hc.symm),
      lookupSt_setSt_self _ _ _ (inv.dom htopmem)]
  have hnewrp : lookupSt (setSt (setSt m top.id ⟨TokenLocation.DISCARDED, 0⟩) rp.id ⟨TokenLocation.DISCARDED, 0⟩) rp.id
      = ⟨TokenLocation.DISCARDED, 0⟩ := by
    rw [lookupSt_setSt_self]
    rw [keys_setSt]
    exact inv.dom hrp
  have hstack_old : ∀ (i : Nat) (u : Token), (rest.reverse)[i]? = some u →
      lookupSt m u.id = ⟨TokenLocation.STACK, i⟩ := by
    intro i u hu
    apply inv.stack_st
    rw [hrevsplit]
    obtain ⟨hlt, _⟩ := List.getElem?_eq_some_iff.mp hu
    rw [List.getElem?_append_left hlt]
    exact hu
  have hrest_unchanged : ∀ u ∈ rest,
      lookupSt (setSt (setSt m top.id ⟨TokenLocation.DISCARDED, 0⟩) rp.id ⟨TokenLocation.DISCARDED, 0⟩) u.id
        = lookupSt m u.id := by
    intro u hu
    refine hunchanged u.id ?_ ?_
    · intro hc
      exact htopnotin (hc ▸ List.mem_map.mpr ⟨u, List.mem_reverse.mpr hu, rfl⟩)
    · intro hc
      have := inv.stack_loc (List.mem_cons_of_mem top hu)
      rw [hc, hrploc] at this
      exact absurd this (by decide)
  have hout_unchanged : ∀ u ∈ out,
      lookupSt (setSt (setSt m top.id ⟨TokenLocation.DISCARDED, 0⟩) rp.id ⟨TokenLocation.DISCARDED, 0⟩) u.id
        = lookupSt m u.id := by
    intro u hu
    have hloc2 := inv.out_loc hu
    refine hunchanged u.id ?_ ?_
    · intro hc
      have := inv.stack_loc (List.mem_cons_self top rest)
      rw [← hc, hloc2] at this
      exact absurd this (by decide)
    · intro hc
      rw [hc, hrploc] at hloc2
      exact absurd hloc2 (by decide)
  refine ⟨?_, ?_, inv.out_sub, ?_, ?_, ?_, ?_, ?_, inv.out_ty⟩
  · rw [keys_setSt, keys_setSt]
    exact inv.keys
  · exact fun t ht => inv.stack_sub t (List.mem_cons_of_mem top ht)
  · intro i u hu
    have humem : u ∈ rest := List.mem_reverse.mp (List.getElem?_mem hu)
    rw [hrest_unchanged u humem]
    exact hstack_old i u hu
  · intro i u hu
    rw [hout_unchanged u (List.getElem?_mem hu)]
    exact inv.out_st i u hu
  · intro t ht hl
    by_cases hc1 : t.id = top.id
    · rw [hc1, hnewtop] at hl
      simp at hl
    · by_cases hc2 : t.id = rp.id
      · rw [hc2, hnewrp] at hl
        simp at hl
      · rw [hunchanged t.id hc1 hc2] at hl
        have := inv.stack_comp t ht hl
        rcases List.mem_cons.mp this with rfl | hmem
        · exact absurd rfl hc1
        · exact hmem
  · intro t ht hl
    by_cases hc1 : t.id = top.id
    · rw [hc1, hnewtop] at hl
      simp at hl
    · by_cases hc2 : t.id = rp.id
      · rw [hc2, hnewrp] at hl
        simp at hl
      · rw [hunchanged t.id hc1 hc2] at hl
        exact inv.out_comp t ht hl
  · exact fun t ht => inv.stack_ty t (List.mem_cons_of_mem top ht)

theorem discard_other {tokens : List Token} {m : StatesMap} {top rp : Token} {rest out : List Token}
    (inv : MapInv tokens m (top :: rest) out) (x : String)
    (hx1 : (lookupSt m x).location ≠ TokenLocation.STACK) (hx2 : x ≠ rp.id) :
    lookupSt (setSt (setSt m top.id ⟨TokenLocation.DISCARDED, 0⟩) rp.id ⟨TokenLocation.DISCARDED, 0⟩) x
      = lookupSt m x := by
  have hx3 : x ≠ top.id := by
    intro hc
    exact hx1 (hc ▸ inv.stack_loc (List.mem_cons_self top rest))
  rw [lookupSt_setSt_ne _ _ _ _ hx2, lookupSt_setSt_ne _ _ _ _ hx3]

theorem op_push_other {tokens : List Token} {m : StatesMap} {tok : Token} {stack out : List Token}
    (inv : MapInv tokens m stack out) (x : String)
    (hx1 : (lookupSt m x).location ≠ TokenLocation.STACK) (hx2 : x ≠ tok.id) :
    lookupSt (renumberStack (tok :: stack) (setSt m tok.id ⟨TokenLocation.STACK, (tok :: stack).length - 1⟩)) x
      = lookupSt m x := by
  have hrev : (tok :: stack).reverse = stack.reverse ++ [tok] := by simp
  have hx3 : x ∉ (stack.reverse ++ [tok]).map Token.id := by
    rw [List.map_append]
    intro hc
    rcases List.mem_append.mp hc with h | h
    · exact inv.id_notin_stack hx1 h
    · rw [List.map_singleton, List.mem_singleton] at h
      exact hx2 h
  rw [renumberStack, hrev, lookupSt_renumberFrom_not _ _ _ _ hx3,
    lookupSt_setSt_ne _ _ _ _ hx2]

/-! ## Invariant propagation through the engine loops -/


theorem StepsOK.record {tokens : List Token} {stack : List Token}
    (m : StatesMap) (outq : List Token) (steps : List StepSnapshot)
    (hs : StepsOK tokens steps) (inv : MapInv tokens m stack outq)
    (d x : String) (a : Option String) :
    StepsOK tokens (recordStep ⟨m, outq, steps⟩ d x a).steps := by
  intro s hsmem
  rw [recordStep_steps] at hsmem
  rcases List.mem_append.mp hsmem with hmem | hmem
  · exact hs s hmem
  · rw [List.mem_singleton] at hmem
    subst hmem
    exact ⟨stack, outq, inv⟩

theorem drainParen_full_inv {tokens : List Token} (hnd : (tokens.map Token.id).Nodup) :
    ∀ (stk : List Token) (e : Eng) (rp : Token),
      MapInv tokens e.states stk e.out → StepsOK tokens e.steps →
      rp ∈ tokens → (lookupSt e.states rp.id).location = TokenLocation.INPUT →
      ∀ (stk' : List Token) (e' : Eng), drainParen rp stk e = Except.ok (stk', e') →
        MapInv tokens e'.states stk' e'.out ∧ StepsOK tokens e'.steps ∧
        (∀ x : String, (lookupSt e.states x).location = TokenLocation.INPUT → x ≠ rp.id →
          (lookupSt e'.states x).location = TokenLocation.INPUT) := by
  intro stk
  induction stk with
  | nil =>
    intro e rp _ _ _ _ stk' e' h
    simp [drainParen] at h
  | cons top rest ih =>
    intro e rp inv hsok hrpmem hrploc stk' e' h
    by_cases htop : top.type = TokenType.LEFT_PAREN
    · rw [drainParen, if_pos htop] at h
      obtain ⟨h1, h2⟩ := Prod.mk.injEq .. ▸ (Except.ok.inj h)
      have inv2 := discard_inv hnd inv hrpmem hrploc
      subst h1
      refine ⟨by rw [← h2]; exact inv2, ?_, ?_⟩
      · rw [← h2]
        exact StepsOK.record _ _ _ hsok inv2 _ _ _
      · intro x hx hxrp
        rw [← h2, recordStep_states]
        show (lookupSt (setSt (setSt e.states top.id ⟨TokenLocation.DISCARDED, 0⟩) rp.id ⟨TokenLocation.DISCARDED, 0⟩) x).location = TokenLocation.INPUT
        rw [discard_other inv x (by rw [hx]; decide) hxrp]
        exact hx
    · rw [drainParen, if_neg htop] at h
      have inv2 := popToOutput_inv hnd inv htop
      have hrploc2 : (lookupSt (renumberStack rest (setSt e.states top.id ⟨TokenLocation.OUTPUT, (e.out ++ [top]).length - 1⟩)) rp.id).location = TokenLocation.INPUT := by
        rw [popToOutput_other inv rp.id (by rw [hrploc]; decide)]
        exact hrploc
      have := ih (recordStep ⟨renumberStack rest (setSt e.states top.id ⟨TokenLocation.OUTPUT, (e.out ++ [top]).length - 1⟩), e.out ++ [top], e.steps⟩ ("Pop " ++ top.value ++ " to Output") ("Inside parentheses, pop \x27" ++ top.value ++ "\x27 to output.") (some top.id)) rp
        inv2 (StepsOK.record _ _ _ hsok inv2 _ _ _) hrpmem hrploc2 stk' e' h
      refine ⟨this.1, this.2.1, ?_⟩
      intro x hx hxrp
      refine this.2.2 x ?_ hxrp
      show (lookupSt (renumberStack rest (setSt e.states top.id ⟨TokenLocation.OUTPUT, (e.out ++ [top]).length - 1⟩)) x).location = TokenLocation.INPUT
      rw [popToOutput_other inv x (by rw [hx]; decide)]
      exact hx

theorem drainOps_full_inv {tokens : List Token} (hnd : (tokens.map Token.id).Nodup)
    (mode : ConversionMode) (tok : Token) :
    ∀ (stk : List Token) (e : Eng),
      MapInv tokens e.states stk e.out → StepsOK tokens e.steps →
        MapInv tokens (drainOps mode tok stk e).2.states (drainOps mode tok stk e).1
            (drainOps mode tok stk e).2.out ∧
          StepsOK tokens (drainOps mode tok stk e).2.steps ∧
          (∀ x : String, (lookupSt e.states x).location = TokenLocation.INPUT →
            (lookupSt (drainOps mode tok stk e).2.states x).location = TokenLocation.INPUT) := by
  intro stk
  induction stk with
  | nil =>
    intro e inv hsok
    exact ⟨inv, hsok, fun x hx => hx⟩
  | cons top rest ih =>
    intro e inv hsok
    by_cases htop : top.type = TokenType.LEFT_PAREN
    · rw [drainOps, if_pos htop]
      exact ⟨inv, hsok, fun x hx => hx⟩
    · by_cases hpop : shouldPop mode top tok = true
      · rw [drainOps, if_neg htop, if_pos hpop]
        have inv2 := popToOutput_inv hnd inv htop
        have := ih (recordStep ⟨renumberStack rest (setSt e.states top.id ⟨TokenLocation.OUTPUT, (e.out ++ [top]).length - 1⟩), e.out ++ [top], e.steps⟩ ("Pop " ++ top.value ++ " to Output") ("\x27" ++ top.value ++ "\x27 has priority/associativity to precede \x27" ++ tok.value ++ "\x27.") (some top.id))
          inv2 (StepsOK.record _ _ _ hsok inv2 _ _ _)
        refine ⟨this.1, this.2.1, ?_⟩
        intro x hx
        refine this.2.2 x ?_
        show (lookupSt (renumberStack rest (setSt e.states top.id ⟨TokenLocation.OUTPUT, (e.out ++ [top]).length - 1⟩)) x).location = TokenLocation.INPUT
        rw [popToOutput_other inv x (by rw [hx]; decide)]
        exact hx
      · rw [drainOps, if_neg htop, if_neg hpop]
        exact ⟨inv, hsok, fun x hx => hx⟩

theorem finalDrain_full_inv {tokens : List Token} (hnd : (tokens.map Token.id).Nodup) :
    ∀ (stk : List Token) (e : Eng),
      MapInv tokens e.states stk e.out → StepsOK tokens e.steps →
      ∀ e' : Eng, finalDrain stk e = Except.ok e' →
        MapInv tokens e'.states [] e'.out ∧ StepsOK tokens e'.steps := by
  intro stk
  induction stk with
  | nil =>
    intro e inv hsok e' h
    simp only [finalDrain, Except.ok.injEq] at h
    subst h
    exact ⟨inv, hsok⟩
  | cons top rest ih =>
    intro e inv hsok e' h
    by_cases htop : top.type = TokenType.LEFT_PAREN
    · rw [finalDrain, if_pos htop] at h
      exact absurd h (by simp)
    · rw [finalDrain, if_neg htop] at h
      have inv2 := popToOutput_inv hnd inv htop
      exact ih (recordStep ⟨renumberStack rest (setSt e.states top.id ⟨TokenLocation.OUTPUT, (e.out ++ [top]).length - 1⟩), e.out ++ [top], e.steps⟩ ("Pop " ++ top.value ++ " to Output") ("Expression end. Pop remaining \x27" ++ top.value ++ "\x27.") (some top.id))
        inv2 (StepsOK.record _ _ _ hsok inv2 _ _ _) e' h

theorem processToken_full_inv {tokens : List Token} (hnd : (tokens.map Token.id).Nodup)
    (mode : ConversionMode) (stack : List Token) (e : Eng) (tok : Token)
    (inv : MapInv tokens e.states stack e.out) (hsok : StepsOK tokens e.steps)
    (htok : tok ∈ tokens) (hloc : (lookupSt e.states tok.id).location = TokenLocation.INPUT)
    (stk' : List Token) (e' : Eng)
    (h : processToken mode stack e tok = Except.ok (stk', e')) :
    MapInv tokens e'.states stk' e'.out ∧ StepsOK tokens e'.steps ∧
      (∀ x : String, (lookupSt e.states x).location = TokenLocation.INPUT → x ≠ tok.id →
        (lookupSt e'.states x).location = TokenLocation.INPUT) := by
  unfold processToken at h
  have hsok1 : StepsOK tokens (recordStep e ("Read " ++ tok.value) ("Processing token \x27" ++ tok.value ++ "\x27.") (some tok.id)).steps := by
    have : e = ⟨e.states, e.out, e.steps⟩ := rfl
    rw [this]
    exact StepsOK.record _ _ _ hsok inv _ _ _
  cases hty : tok.type <;> rw [hty] at h
  · obtain ⟨h1, h2⟩ := Prod.mk.injEq .. ▸ (Except.ok.inj h)
    have inv2 := operand_move_inv hnd inv htok hloc hty
    subst h1
    refine ⟨by rw [← h2]; exact inv2, by rw [← h2]; exact StepsOK.record _ _ _ hsok1 inv2 _ _ _, ?_⟩
    intro x hx hxne
    rw [← h2]
    show (lookupSt (setSt e.states tok.id ⟨TokenLocation.OUTPUT, (e.out ++ [tok]).length - 1⟩) x).location = TokenLocation.INPUT
    rw [lookupSt_setSt_ne _ _ _ _ hxne]
    exact hx
  · have hd := drainOps_full_inv hnd mode tok stack
      (recordStep e ("Read " ++ tok.value) ("Processing token \x27" ++ tok.value ++ "\x27.") (some tok.id)) inv hsok1
    obtain ⟨h1, h2⟩ := Prod.mk.injEq .. ▸ (Except.ok.inj h)
    have hloc2 : (lookupSt (drainOps mode tok stack (recordStep e ("Read " ++ tok.value) ("Processing token \x27" ++ tok.value ++ "\x27.") (some tok.id))).2.states tok.id).location = TokenLocation.INPUT :=
      hd.2.2 tok.id hloc
    have inv3 := op_push_inv hnd hd.1 htok hloc2 hty
    subst h1
    refine ⟨by rw [← h2]; exact inv3, by rw [← h2]; exact StepsOK.record _ _ _ hd.2.1 inv3 _ _ _, ?_⟩
    intro x hx hxne
    rw [← h2]
    show (lookupSt (renumberStack (tok :: (drainOps mode tok stack _).1) (setSt (drainOps mode tok stack _).2.states tok.id ⟨TokenLocation.STACK, (tok :: (drainOps mode tok stack _).1).length - 1⟩)) x).location = TokenLocation.INPUT
    rw [op_push_other hd.1 x (by rw [hd.2.2 x hx]; decide) hxne]
    exact hd.2.2 x hx
  · obtain ⟨h1, h2⟩ := Prod.mk.injEq .. ▸ (Except.ok.inj h)
    have inv2 := lparen_push_inv hnd inv htok hloc hty
    subst h1
    refine ⟨by rw [← h2]; exact inv2, by rw [← h2]; exact StepsOK.record _ _ _ hsok1 inv2 _ _ _, ?_⟩
    intro x hx hxne
    rw [← h2]
    show (lookupSt (setSt e.states tok.id ⟨TokenLocation.STACK, (tok :: stack).length - 1⟩) x).location = TokenLocation.INPUT
    rw [lookupSt_setSt_ne _ _ _ _ hxne]
    exact hx
  · exact drainParen_full_inv hnd stack
      (recordStep e ("Read " ++ tok.value) ("Processing token \x27" ++ tok.value ++ "\x27.") (some tok.id)) tok
      inv hsok1 htok hloc stk' e' h

theorem processAll_full_inv {tokens : List Token} (hnd : (tokens.map Token.id).Nodup)
    (mode : ConversionMode) :
    ∀ (toks stack : List Token) (e : Eng),
      MapInv tokens e.states stack e.out → StepsOK tokens e.steps →
      (∀ t ∈ toks, t ∈ tokens) →
      (∀ t ∈ toks, (lookupSt e.states t.id).location = TokenLocation.INPUT) →
      toks.Nodup →
      ∀ (stk' : List Token) (e' : Eng), processAll mode stack e toks = Except.ok (stk', e') →
        MapInv tokens e'.states stk' e'.out ∧ StepsOK tokens e'.steps := by
  intro toks
  induction toks with
  | nil =>
    intro stack e inv hsok _ _ _ stk' e' h
    simp only [processAll, Except.ok.injEq, Prod.ext_iff] at h
    obtain ⟨h1, h2⟩ := h
    exact ⟨h1 ▸ h2 ▸ inv, h2 ▸ hsok⟩
  | cons t ts ih =>
    intro stack e inv hsok hsub hinp hnd2 stk' e' h
    unfold processAll at h
    cases hp : processToken mode stack e t with
    | error err => rw [hp] at h; exact absurd h (by simp)
    | ok se =>
      rw [hp] at h
      have hmem : t ∈ tokens := hsub t (List.mem_cons_self t ts)
      have hstep := processToken_full_inv hnd mode stack e t inv hsok hmem
        (hinp t (List.mem_cons_self t ts)) se.1 se.2 hp
      rw [List.nodup_cons] at hnd2
      refine ih se.1 se.2 hstep.1 hstep.2.1 (fun u hu => hsub u (List.mem_cons_of_mem t hu)) ?_ hnd2.2 stk' e' h
      intro u hu
      have humem : u ∈ tokens := hsub u (List.mem_cons_of_mem t hu)
      refine hstep.2.2 u.id (hinp u (List.mem_cons_of_mem t hu)) ?_
      intro hc
      have : u = t := id_inj_of_nodup hnd humem hmem hc
      exact hnd2.1 (this ▸ hu)

theorem initFrom_inv (tokens : List Token) :
    MapInv tokens (initFrom 0 tokens) [] [] := by
  have hloc : ∀ t ∈ tokens, (lookupSt (initFrom 0 tokens) t.id).location = TokenLocation.INPUT := by
    intro t ht
    exact lookupSt_initFrom_loc tokens 0 t.id (List.mem_map.mpr ⟨t, ht, rfl⟩)
  refine ⟨keys_initFrom tokens 0, ?_, ?_, ?_, ?_, ?_, ?_, ?_, ?_⟩
  · intro t ht; simp at ht
  · intro t ht; simp at ht
  · intro i t hi; simp at hi
  · intro i t hi; simp at hi
  · intro t ht hl
    rw [hloc t ht] at hl
    exact absurd hl (by decide)
  · intro t ht hl
    rw [hloc t ht] at hl
    exact absurd hl (by decide)
  · intro t ht; simp at ht
  · intro t ht; simp at ht

theorem startEng_facts (tokens : List Token) (mode : ConversionMode) :
    MapInv tokens (startEng tokens mode).states [] (startEng tokens mode).out ∧
      StepsOK tokens (startEng tokens mode).steps ∧
      (∀ t ∈ tokens, (lookupSt (startEng tokens mode).states t.id).location = TokenLocation.INPUT) := by
  have hinv := initFrom_inv tokens
  refine ⟨hinv, ?_, ?_⟩
  · exact StepsOK.record _ _ _ (by intro s hs; simp at hs) hinv _ _ _
  · intro t ht
    exact lookupSt_initFrom_loc tokens 0 t.id (List.mem_map.mpr ⟨t, ht, rfl⟩)

/-- Master theorem for a successful run: the result fields, the goodness of
every recorded snapshot, and the final snapshot carrying the invariant for
an empty stack together with the reference output. -/
theorem generateSteps_master (expression : String) (mode : ConversionMode) (r : AlgorithmResult)
    (h : generateSteps expression mode = Except.ok r) :
    r.tokens = tokensOf expression mode ∧ r.mode = mode ∧
      StepsOK (tokensOf expression mode) r.steps ∧
      ∃ e2 : Eng,
        r.steps.getLast? = some ⟨e2.steps.length, "Finished", "Conversion complete.", e2.states, none⟩ ∧
        MapInv (tokensOf expression mode) e2.states [] e2.out ∧
        refRun mode (tokensOf expression mode) = some e2.out := by
  obtain ⟨stk1, e1, e2, hp, hf, hr⟩ := generateSteps_ok_elim expression mode r h
  have hnd := tokensOf_ids_nodup expression mode
  obtain ⟨hinv0, hsok0, hinp0⟩ := startEng_facts (tokensOf expression mode) mode
  have hnd2 : (tokensOf expression mode).Nodup := hnd.of_map
  have hall := processAll_full_inv hnd mode (tokensOf expression mode) []
    (startEng (tokensOf expression mode) mode) hinv0 hsok0 (fun t ht => ht) hinp0 hnd2 stk1 e1 hp
  have hfin := finalDrain_full_inv hnd stk1 e1 hall.1 hall.2 e2 hf
  have hrefall := processAll_ref mode (tokensOf expression mode) [] _ stk1 e1 hp
  rw [startEng_out] at hrefall
  have hreffin := finalDrain_ref stk1 e1 e2 hf
  refine ⟨by rw [hr], by rw [hr], ?_, e2, ?_, hfin.1, ?_⟩
  · rw [hr]
    show StepsOK (tokensOf expression mode) (recordStep e2 "Finished" "Conversion complete." none).steps
    have : e2 = ⟨e2.states, e2.out, e2.steps⟩ := rfl
    rw [this]
    exact StepsOK.record _ _ _ hfin.2 hfin.1 _ _ _
  · rw [hr]
    show (recordStep e2 "Finished" "Conversion complete." none).steps.getLast? = _
    rw [recordStep_steps, List.getLast?_concat]
  · unfold refRun
    rw [hrefall]
    exact hreffin

/-! ## Zone extraction agrees with the engine structures -/

theorem filterMap_range'_eq {α : Type} (f : Nat → Option α) :
    ∀ (l : List α) (s : Nat), (∀ j : Nat, j < l.length → f (s + j) = l[j]?) →
      (List.range' s l.length).filterMap f = l := by
  intro l
  induction l with
  | nil => intro s _; simp
  | cons a as ih =>
    intro s h
    rw [List.length_cons, List.range'_succ, List.filterMap_cons]
    have h0 : f s = some a := by
      have := h 0 (by simp)
      simpa using this
    rw [h0]
    show a :: (List.range' (s + 1) as.length).filterMap f = a :: as
    congr 1
    refine ih (s + 1) ?_
    intro j hj
    have := h (j + 1) (by simp; omega)
    rw [show s + (j + 1) = s + 1 + j by omega] at this
    simpa using this

theorem zone_mem_iff_out {tokens : List Token} {m : StatesMap} {stack out : List Token}
    (inv : MapInv tokens m stack out) :
    ∀ t : Token, t ∈ zoneTokensOf tokens m TokenLocation.OUTPUT ↔ t ∈ out := by
  intro t
  constructor
  · intro ht
    obtain ⟨htok, hp⟩ := List.mem_filter.mp ht
    exact inv.out_comp t htok (of_decide_eq_true hp)
  · intro ht
    exact List.mem_filter.mpr ⟨inv.out_sub t ht, decide_eq_true (inv.out_loc ht)⟩

theorem zone_mem_iff_stack {tokens : List Token} {m : StatesMap} {stack out : List Token}
    (inv : MapInv tokens m stack out) :
    ∀ t : Token, t ∈ zoneTokensOf tokens m TokenLocation.STACK ↔ t ∈ stack := by
  intro t
  constructor
  · intro ht
    obtain ⟨htok, hp⟩ := List.mem_filter.mp ht
    exact inv.stack_comp t htok (of_decide_eq_true hp)
  · intro ht
    exact List.mem_filter.mpr ⟨inv.stack_sub t ht, decide_eq_true (inv.stack_loc ht)⟩

theorem zoneOrdered_out_eq {tokens : List Token} {m : StatesMap} {stack out : List Token}
    (hnd : (tokens.map Token.id).Nodup) (inv : MapInv tokens m stack out) :
    zoneOrdered tokens m TokenLocation.OUTPUT = out := by
  have hmem_iff := zone_mem_iff_out inv
  have hmemnd : (zoneTokensOf tokens m TokenLocation.OUTPUT).Nodup := (hnd.of_map).filter _
  have houtnd : out.Nodup := inv.out_ids_nodup.of_map
  have hperm : (zoneTokensOf tokens m TokenLocation.OUTPUT).Perm out :=
    (List.perm_ext_iff_of_nodup hmemnd houtnd).mpr hmem_iff
  have hlen : (zoneTokensOf tokens m TokenLocation.OUTPUT).length = out.length := hperm.length_eq
  have hfind : ∀ j : Nat, j < out.length →
      (zoneTokensOf tokens m TokenLocation.OUTPUT).find? (fun t => (lookupSt m t.id).index == j) = out[j]? := by
    intro j hj
    have hjget : out[j]? = some (out[j]) := List.getElem?_eq_getElem hj
    have houtj_mem : out[j] ∈ zoneTokensOf tokens m TokenLocation.OUTPUT :=
      (hmem_iff _).mpr (List.getElem_mem hj)
    have hpj : ((lookupSt m (out[j]).id).index == j) = true := by
      rw [inv.out_st j _ hjget]
      simp
    have hsome : ((zoneTokensOf tokens m TokenLocation.OUTPUT).find? (fun t => (lookupSt m t.id).index == j)).isSome :=
      List.find?_isSome.mpr ⟨_, houtj_mem, hpj⟩
    obtain ⟨u, hu⟩ := Option.isSome_iff_exists.mp hsome
    have humem : u ∈ zoneTokensOf tokens m TokenLocation.OUTPUT := List.mem_of_find?_eq_some hu
    have hup0 := List.find?_some hu
    have hup : (lookupSt m u.id).index = j := by simpa using hup0
    have huout : u ∈ out := (hmem_iff u).mp humem
    obtain ⟨i, hi⟩ := List.mem_iff_getElem?.mp huout
    have hust := inv.out_st i u hi
    have hij : i = j := by
      rw [hust] at hup
      exact hup
    subst hij
    rw [hu]
    exact hi.symm
  show (List.range (zoneTokensOf tokens m TokenLocation.OUTPUT).length).filterMap
      (fun j => (zoneTokensOf tokens m TokenLocation.OUTPUT).find? (fun t => (lookupSt m t.id).index == j)) = out
  rw [hlen, List.range_eq_range']
  refine filterMap_range'_eq _ out 0 ?_
  intro j hj
  rw [Nat.zero_add]
  exact hfind j hj

theorem zonePositions_stack_perm {tokens : List Token} {m : StatesMap} {stack out : List Token}
    (hnd : (tokens.map Token.id).Nodup) (inv : MapInv tokens m stack out) :
    (zonePositions tokens m TokenLocation.STACK).Perm
      (List.range (zonePositions tokens m TokenLocation.STACK).length) := by
  have hmem_iff := zone_mem_iff_stack inv
  have hMnd : (zoneTokensOf tokens m TokenLocation.STACK).Nodup := (hnd.of_map).filter _
  have hpos : ∀ t ∈ stack, ∃ i : Nat, stack.reverse[i]? = some t ∧ (lookupSt m t.id).index = i := by
    intro t ht
    obtain ⟨i, hi⟩ := mem_rev_getElem ht
    exact ⟨i, hi, by rw [inv.stack_st i t hi]⟩
  have hPnd : ((zoneTokensOf tokens m TokenLocation.STACK).map (fun t => (lookupSt m t.id).index)).Nodup := by
    refine List.Nodup.map_on ?_ hMnd
    intro x hx y hy hxy
    obtain ⟨i, hxi, hxidx⟩ := hpos x ((hmem_iff x).mp hx)
    obtain ⟨j, hyj, hyidx⟩ := hpos y ((hmem_iff y).mp hy)
    rw [hxidx, hyidx] at hxy
    subst hxy
    rw [hxi] at hyj
    exact Option.some.inj hyj
  have hmemP : ∀ k : Nat, k ∈ (zoneTokensOf tokens m TokenLocation.STACK).map (fun t => (lookupSt m t.id).index) ↔ k < stack.length := by
    intro k
    constructor
    · intro hk
      rcases List.mem_map.mp hk with ⟨t, htM, hidx⟩
      obtain ⟨i, hi, hidx2⟩ := hpos t ((hmem_iff t).mp htM)
      obtain ⟨hlt, _⟩ := List.getElem?_eq_some_iff.mp hi
      rw [List.length_reverse] at hlt
      rw [← hidx, hidx2]
      exact hlt
    · intro hk
      have hk2 : k < stack.reverse.length := by rw [List.length_reverse]; exact hk
      have hget : stack.reverse[k]? = some (stack.reverse[k]) := List.getElem?_eq_getElem hk2
      have htmem : stack.reverse[k] ∈ stack := List.mem_reverse.mp (List.getElem_mem hk2)
      refine List.mem_map.mpr ⟨stack.reverse[k], (hmem_iff _).mpr htmem, ?_⟩
      rw [inv.stack_st k _ hget]
  have hperm : ((zoneTokensOf tokens m TokenLocation.STACK).map (fun t => (lookupSt m t.id).index)).Perm (List.range stack.length) := by
    refine (List.perm_ext_iff_of_nodup hPnd (List.nodup_range _)).mpr ?_
    intro k
    rw [List.mem_range]
    exact hmemP k
  have hlen := hperm.length_eq
  rw [List.length_range] at hlen
  show ((zoneTokensOf tokens m TokenLocation.STACK).map (fun t => (lookupSt m t.id).index)).Perm
    (List.range ((zoneTokensOf tokens m TokenLocation.STACK).map (fun t => (lookupSt m t.id).index)).length)
  rw [hlen]
  exact hperm

theorem zonePositions_out_perm {tokens : List Token} {m : StatesMap} {stack out : List Token}
    (hnd : (tokens.map Token.id).Nodup) (inv : MapInv tokens m stack out) :
    (zonePositions tokens m TokenLocation.OUTPUT).Perm
      (List.range (zonePositions tokens m TokenLocation.OUTPUT).length) := by
  have hmem_iff := zone_mem_iff_out inv
  have hMnd : (zoneTokensOf tokens m TokenLocation.OUTPUT).Nodup := (hnd.of_map).filter _
  have hpos : ∀ t ∈ out, ∃ i : Nat, out[i]? = some t ∧ (lookupSt m t.id).index = i := by
    intro t ht
    obtain ⟨i, hi⟩ := List.mem_iff_getElem?.mp ht
    exact ⟨i, hi, by rw [inv.out_st i t hi]⟩
  have hPnd : ((zoneTokensOf tokens m TokenLocation.OUTPUT).map (fun t => (lookupSt m t.id).index)).Nodup := by
    refine List.Nodup.map_on ?_ hMnd
    intro x hx y hy hxy
    obtain ⟨i, hxi, hxidx⟩ := hpos x ((hmem_iff x).mp hx)
    obtain ⟨j, hyj, hyidx⟩ := hpos y ((hmem_iff y).mp hy)
    rw [hxidx, hyidx] at hxy
    subst hxy
    rw [hxi] at hyj
    exact Option.some.inj hyj
  have hmemP : ∀ k : Nat, k ∈ (zoneTokensOf tokens m TokenLocation.OUTPUT).map (fun t => (lookupSt m t.id).index) ↔ k < out.length := by
    intro k
    constructor
    · intro hk
      rcases List.mem_map.mp hk with ⟨t, htM, hidx⟩
      obtain ⟨i, hi, hidx2⟩ := hpos t ((hmem_iff t).mp htM)
      obtain ⟨hlt, _⟩ := List.getElem?_eq_some_iff.mp hi
      rw [← hidx, hidx2]
      exact hlt
    · intro hk
      have hget : out[k]? = some (out[k]) := List.getElem?_eq_getElem hk
      have htmem : out[k] ∈ out := List.getElem_mem hk
      refine List.mem_map.mpr ⟨out[k], (hmem_iff _).mpr htmem, ?_⟩
      rw [inv.out_st k _ hget]
  have hperm : ((zoneTokensOf tokens m TokenLocation.OUTPUT).map (fun t => (lookupSt m t.id).index)).Perm (List.range out.length) := by
    refine (List.perm_ext_iff_of_nodup hPnd (List.nodup_range _)).mpr ?_
    intro k
    rw [List.mem_range]
    exact hmemP k
  have hlen := hperm.length_eq
  rw [List.length_range] at hlen
  show ((zoneTokensOf tokens m TokenLocation.OUTPUT).map (fun t => (lookupSt m t.id).index)).Perm
    (List.range ((zoneTokensOf tokens m TokenLocation.OUTPUT).map (fun t => (lookupSt m t.id).index)).length)
  rw [hlen]
  exact hperm

/-! ## Helper lemmas for the claim theorems -/

theorem rawOf_post (expression : String) :
    rawOf expression ConversionMode.POSTFIX = rawTokenize expression.data := rfl

theorem rawOf_pre (expression : String) :
    rawOf expression ConversionMode.PREFIX = ((rawTokenize expression.data).reverse).map swapParen := rfl

theorem finalOutput_eq_refRun (expression : String) (mode : ConversionMode) (r : AlgorithmResult)
    (h : generateSteps expression mode = Except.ok r) :
    ∃ outq : List Token, refRun mode (tokensOf expression mode) = some outq ∧
      finalOutputTokens r = outq := by
  obtain ⟨htoks, hmode, hsok, e2, hlast, hinv, href⟩ := generateSteps_master expression mode r h
  refine ⟨e2.out, href, ?_⟩
  unfold finalOutputTokens
  rw [hlast]
  show zoneOrdered r.tokens e2.states TokenLocation.OUTPUT = e2.out
  rw [htoks]
  exact zoneOrdered_out_eq (tokensOf_ids_nodup expression mode) hinv

theorem mkTokensFrom_getElem (l : List String) :
    ∀ (k i : Nat) (t : Token), (mkTokensFrom k l)[i]? = some t →
      ∃ s : String, l[i]? = some s ∧ t = mkTok (k + i) s := by
  induction l with
  | nil => intro k i t h; simp [mkTokensFrom] at h
  | cons s ss ih =>
    intro k i t h
    cases i with
    | zero =>
      rw [mkTokensFrom, List.getElem?_cons_zero, Option.some.injEq] at h
      exact ⟨s, by simp, by rw [← h]; congr 1⟩
    | succ j =>
      rw [mkTokensFrom, List.getElem?_cons_succ] at h
      obtain ⟨s2, hs2, ht⟩ := ih (k + 1) j t h
      refine ⟨s2, by simpa using hs2, ?_⟩
      rw [ht]
      congr 1
      omega

/-! ## Claim theorems -/

/-- C1 (amended): for every expression on which the engine succeeds, in
POSTFIX mode the OUTPUT-zone token sequence of the final step, ordered by
position, is exactly the reference postfix conversion, and joining its
values with single spaces reproduces the canonical postfix string; in
PREFIX mode the REVERSE of that OUTPUT-zone sequence is the reference
prefix conversion (the engine does not reverse the output queue). -/
theorem C1_final_output_matches_reference (expression : String) (r : AlgorithmResult) :
    (generateSteps expression ConversionMode.POSTFIX = Except.ok r →
      refPostfixConversion expression = some (finalOutputValues r) ∧
      (refPostfixConversion expression).map (String.intercalate " ")
        = some (String.intercalate " " (finalOutputValues r))) ∧
    (generateSteps expression ConversionMode.PREFIX = Except.ok r →
      refPrefixConversion expression = some ((finalOutputValues r).reverse)) := by
  constructor
  · intro h
    obtain ⟨outq, href, hout⟩ := finalOutput_eq_refRun expression ConversionMode.POSTFIX r h
    have h1 : refPostfixConversion expression = some (finalOutputValues r) := by
      unfold refPostfixConversion
      have htok : tokensOf expression ConversionMode.POSTFIX = mkTokens (rawTokenize expression.data) := by
        unfold tokensOf
        rw [rawOf_post]
      rw [← htok, href]
      unfold finalOutputValues
      rw [hout]
      rfl
    exact ⟨h1, by rw [h1]; rfl⟩
  · intro h
    obtain ⟨outq, href, hout⟩ := finalOutput_eq_refRun expression ConversionMode.PREFIX r h
    unfold refPrefixConversion
    have htok : tokensOf expression ConversionMode.PREFIX
        = mkTokens (((rawTokenize expression.data).reverse).map swapParen) := by
      unfold tokensOf
      rw [rawOf_pre]
    rw [← htok, href]
    unfold finalOutputValues
    rw [hout]
    rfl

/-- C1 counterexample: in PREFIX mode on `A + B` the final OUTPUT-zone
sequence is `B A +`, which is not the prefix conversion `+ A B` computed by
the reference implementation; the claim as stated fails for PREFIX mode. -/
theorem C1_prefix_not_reference_cex :
    (generateSteps "A + B" ConversionMode.PREFIX).map finalOutputValues = Except.ok ["B", "A", "+"] ∧
    refPrefixConversion "A + B" = some ["+", "A", "B"] ∧
    (["B", "A", "+"] : List String) ≠ ["+", "A", "B"] :=
  ⟨rfl, rfl, by decide⟩

/-- C1 witness: the amended theorem applied to the concrete runs of
`A + B` in both modes. -/
theorem C1_reference_witness :
    refPostfixConversion "A + B" = some (finalOutputValues runAplusB) ∧
    refPrefixConversion "A + B" = some ((finalOutputValues runAplusBpre).reverse) :=
  ⟨((C1_final_output_matches_reference "A + B" runAplusB).1 rfl).1,
   (C1_final_output_matches_reference "A + B" runAplusBpre).2 rfl⟩

/-- C2 (amended): at every recorded step of every successful run, for the
STACK and OUTPUT zones, the positions of the tokens in that zone are
exactly the contiguous range 0..count-1 with no gaps or duplicates; this
does not hold for the INPUT zone (whose tokens keep their original
indices) nor for the DISCARDED zone (all of whose positions are fixed
at 0). -/
theorem C2_stack_output_contiguity (expression : String) (mode : ConversionMode)
    (r : AlgorithmResult) (s : StepSnapshot)
    (h : generateSteps expression mode = Except.ok r) (hs : s ∈ r.steps)
    (z : TokenLocation) (hz : z = TokenLocation.STACK ∨ z = TokenLocation.OUTPUT) :
    (zonePositions r.tokens s.tokenStates z).Perm
      (List.range (zonePositions r.tokens s.tokenStates z).length) := by
  obtain ⟨htoks, _, hsok, _⟩ := generateSteps_master expression mode r h
  obtain ⟨stk, outq, hinv⟩ := hsok s hs
  rw [htoks]
  rcases hz with rfl | rfl
  · exact zonePositions_stack_perm (tokensOf_ids_nodup expression mode) hinv
  · exact zonePositions_out_perm (tokensOf_ids_nodup expression mode) hinv

/-- C2 counterexample: in the POSTFIX run of `A + B`, at step 2 (after the
operand A has moved to the output) the INPUT zone holds two tokens at
positions 1 and 2, not 0..1; and in the final step of the run of
`( A ) ( B )` the DISCARDED zone holds four tokens all at position 0. -/
theorem C2_input_discarded_cex :
    zonePositions runAplusB.tokens (runAplusB.steps.getD 2 defaultSnap).tokenStates
        TokenLocation.INPUT = [1, 2] ∧
    ¬ ([1, 2] : List Nat).Perm (List.range ([1, 2] : List Nat).length) ∧
    zonePositions runTwoPairs.tokens ((runTwoPairs.steps.getLast?).getD defaultSnap).tokenStates
        TokenLocation.DISCARDED = [0, 0, 0, 0] ∧
    ¬ ([0, 0, 0, 0] : List Nat).Perm (List.range ([0, 0, 0, 0] : List Nat).length) :=
  ⟨rfl, by decide, rfl, by decide⟩

/-- C2 witness: the amended theorem applied to a concrete step of the
POSTFIX run of `A + B`. -/
theorem C2_contiguity_witness :
    (zonePositions runAplusB.tokens (runAplusB.steps.getD 4 defaultSnap).tokenStates
        TokenLocation.STACK).Perm
      (List.range (zonePositions runAplusB.tokens (runAplusB.steps.getD 4 defaultSnap).tokenStates
        TokenLocation.STACK).length) :=
  C2_stack_output_contiguity "A + B" ConversionMode.POSTFIX runAplusB
    (runAplusB.steps.getD 4 defaultSnap) rfl (by decide) TokenLocation.STACK (Or.inl rfl)

/-- C3: the engine fails in exactly two ways and otherwise returns a
result; a RIGHT_PAREN whose stack draining exhausts the stack without a
LEFT_PAREN raises the missing-open-parenthesis variant (`A + B )` fails
this way), and a LEFT_PAREN remaining on the stack after all input raises
the missing-close-parenthesis variant (`( A + B` fails this way); every
failure aborts the run with only the error observable. -/
theorem C3_error_cases :
    (∀ (expression : String) (mode : ConversionMode),
        generateSteps expression mode = Except.error ParenError.MissingLeft ∨
        generateSteps expression mode = Except.error ParenError.MissingRight ∨
        ∃ r : AlgorithmResult, generateSteps expression mode = Except.ok r) ∧
    generateSteps "A + B )" ConversionMode.POSTFIX = Except.error ParenError.MissingLeft ∧
    generateSteps "( A + B" ConversionMode.POSTFIX = Except.error ParenError.MissingRight ∧
    (∀ (rp : Token) (e : Eng), drainParen rp [] e = Except.error ParenError.MissingLeft) ∧
    (∀ (top : Token) (rest : List Token) (e : Eng), top.type = TokenType.LEFT_PAREN →
        finalDrain (top :: rest) e = Except.error ParenError.MissingRight) := by
  refine ⟨?_, rfl, rfl, ?_, ?_⟩
  · intro expression mode
    cases hg : generateSteps expression mode with
    | ok r => exact Or.inr (Or.inr ⟨r, rfl⟩)
    | error err =>
      cases err
      · exact Or.inl rfl
      · exact Or.inr (Or.inl rfl)
  · intro rp e
    rfl
  · intro top rest e htop
    rw [finalDrain, if_pos htop]

/-- C3 witness: both failure mechanisms at concrete inputs. -/
theorem C3_error_witness :
    drainParen (mkTok 0 ")") [] ⟨[], [], []⟩ = Except.error ParenError.MissingLeft ∧
    finalDrain [mkTok 0 "("] ⟨[], [], []⟩ = Except.error ParenError.MissingRight :=
  ⟨C3_error_cases.2.2.2.1 (mkTok 0 ")") ⟨[], [], []⟩,
   C3_error_cases.2.2.2.2 (mkTok 0 "(") [] ⟨[], [], []⟩ (by decide)⟩

/-- C4: in POSTFIX mode, on an equal-precedence tie the stack top is popped
exactly when the incoming operator is left-associative; every operator is
left-associative except the caret; and the run of `A ^ B ^ C` yields the
right-associative grouping `A B C ^ ^`. -/
theorem C4_postfix_tiebreak :
    (∀ top tok : Token, top.priority = tok.priority →
        shouldPop ConversionMode.POSTFIX top tok = isLeftAssociative tok.value) ∧
    isLeftAssociative "^" = false ∧
    isLeftAssociative "+" = true ∧ isLeftAssociative "-" = true ∧
    isLeftAssociative "*" = true ∧ isLeftAssociative "/" = true ∧
    (generateSteps "A ^ B ^ C" ConversionMode.POSTFIX).map
        (fun r => String.intercalate " " (finalOutputValues r)) = Except.ok "A B C ^ ^" := by
  refine ⟨?_, by decide, by decide, by decide, by decide, by decide, rfl⟩
  intro top tok h
  have hbeq : (top.priority == tok.priority) = true := by simp [h]
  unfold shouldPop
  rw [if_pos rfl, if_neg (show ¬ top.priority > tok.priority by omega), hbeq]
  cases hassoc : isLeftAssociative tok.value <;> simp

/-- C4 witness: the tie-break equation at two concrete operator tokens of
equal priority. -/
theorem C4_tiebreak_witness :
    shouldPop ConversionMode.POSTFIX (mkTok 0 "+") (mkTok 1 "-")
      = isLeftAssociative (mkTok 1 "-").value :=
  C4_postfix_tiebreak.1 (mkTok 0 "+") (mkTok 1 "-") (by decide)

/-- C5: the POSTFIX run of `A + B * C - ( D / E )` succeeds and its final
OUTPUT-zone tokens, ordered by position and joined with single spaces,
equal `A B C * + D E / -`. -/
theorem C5_roundtrip :
    (generateSteps "A + B * C - ( D / E )" ConversionMode.POSTFIX).map
      (fun r => String.intercalate " " (finalOutputValues r)) = Except.ok "A B C * + D E / -" := rfl

/-- C6: in PREFIX mode the engine first reverses the raw token sequence and
swaps the parenthesis literals, assigns the ids after this transform (so
the id of the token at position i embeds i in the reversed order), and does
not reverse the output queue at the end: the reference prefix conversion is
the REVERSE of the final OUTPUT-zone sequence. -/
theorem C6_prefix_pre_transform (expression : String) (r : AlgorithmResult)
    (h : generateSteps expression ConversionMode.PREFIX = Except.ok r) :
    r.tokens = mkTokens (((rawTokenize expression.data).reverse).map swapParen) ∧
    (∀ (i : Nat) (t : Token), r.tokens[i]? = some t →
        t.id = "t-" ++ Nat.repr i ++ "-" ++ t.value) ∧
    refPrefixConversion expression = some ((finalOutputValues r).reverse) := by
  have hm := generateSteps_master expression ConversionMode.PREFIX r h
  have htoks : r.tokens = mkTokens (((rawTokenize expression.data).reverse).map swapParen) := by
    rw [hm.1]
    unfold tokensOf
    rw [rawOf_pre]
  refine ⟨htoks, ?_, ?_⟩
  · intro i t ht
    rw [htoks] at ht
    obtain ⟨s, hs, hteq⟩ := mkTokensFrom_getElem _ 0 i t ht
    rw [Nat.zero_add] at hteq
    rw [hteq]
    rfl
  · obtain ⟨outq, href, hout⟩ := finalOutput_eq_refRun expression ConversionMode.PREFIX r h
    unfold refPrefixConversion
    have htok2 : tokensOf expression ConversionMode.PREFIX
        = mkTokens (((rawTokenize expression.data).reverse).map swapParen) := by
      unfold tokensOf
      rw [rawOf_pre]
    rw [← htok2, href]
    unfold finalOutputValues
    rw [hout]
    rfl

/-- C6 witness: the theorem applied to the concrete PREFIX run of
`A + B * C`. -/
theorem C6_pre_transform_witness :
    refPrefixConversion "A + B * C" = some ((finalOutputValues runPre2).reverse) :=
  (C6_prefix_pre_transform "A + B * C" runPre2 rfl).2.2

/-- C7: in PREFIX mode the equal-precedence tie pops exactly when the
incoming operator is right-associative; for unequal precedence the pop
decision agrees with POSTFIX mode; and the parenthesis branches of the
per-token transition are identical in both modes. -/
theorem C7_prefix_tiebreak :
    (∀ top tok : Token, top.priority = tok.priority →
        shouldPop ConversionMode.PREFIX top tok = !(isLeftAssociative tok.value)) ∧
    (∀ top tok : Token, top.priority ≠ tok.priority →
        shouldPop ConversionMode.PREFIX top tok = shouldPop ConversionMode.POSTFIX top tok) ∧
    (∀ (stack : List Token) (e : Eng) (tok : Token),
        tok.type = TokenType.LEFT_PAREN ∨ tok.type = TokenType.RIGHT_PAREN →
        processToken ConversionMode.PREFIX stack e tok
          = processToken ConversionMode.POSTFIX stack e tok) := by
  refine ⟨?_, ?_, ?_⟩
  · intro top tok h
    have hbeq : (top.priority == tok.priority) = true := by simp [h]
    unfold shouldPop
    rw [if_neg (show ¬ (ConversionMode.PREFIX = ConversionMode.POSTFIX) by decide),
      if_neg (show ¬ top.priority > tok.priority by omega), hbeq]
    cases hassoc : isLeftAssociative tok.value <;> simp
  · intro top tok h
    by_cases hgt : top.priority > tok.priority
    · simp [shouldPop, hgt]
    · have hbeq : (top.priority == tok.priority) = false := by simp [h]
      simp [shouldPop, hgt, hbeq]
  · intro stack e tok hty
    unfold processToken
    rcases hty with hty | hty <;> rw [hty]

/-- C7 witness: the inverted tie-break at two concrete operator tokens of
equal priority. -/
theorem C7_tiebreak_witness :
    shouldPop ConversionMode.PREFIX (mkTok 0 "+") (mkTok 1 "-")
      = !(isLeftAssociative (mkTok 1 "-").value) :=
  C7_prefix_tiebreak.1 (mkTok 0 "+") (mkTok 1 "-") (by decide)

/-- C8: the engine is a pure function of its two arguments: two calls with
identical expression and mode produce structurally identical results, with
the same tokens, the same number of steps and identical snapshots. -/
theorem C8_deterministic (expression : String) (mode : ConversionMode)
    (r1 r2 : Except ParenError AlgorithmResult)
    (h1 : generateSteps expression mode = r1) (h2 : generateSteps expression mode = r2) :
    r1 = r2 ∧ (∀ a b : AlgorithmResult, r1 = Except.ok a → r2 = Except.ok b →
      a.tokens = b.tokens ∧ a.steps.length = b.steps.length ∧ a.steps = b.steps) := by
  subst h1
  subst h2
  refine ⟨rfl, ?_⟩
  intro a b ha hb
  rw [ha] at hb
  have hab := Except.ok.inj hb
  subst hab
  exact ⟨rfl, rfl, rfl⟩

/-- C8 witness: the determinism theorem applied to two identical calls on a
concrete input. -/
theorem C8_deterministic_witness :
    generateSteps "A + B" ConversionMode.POSTFIX = generateSteps "A + B" ConversionMode.POSTFIX :=
  (C8_deterministic "A + B" ConversionMode.POSTFIX _ _ rfl rfl).1

/-- C9: any input with no recognizable tokens (such as the empty string or
pure whitespace) is not an error: the run returns an empty token list, an
empty final OUTPUT, and exactly two steps, a Start step followed by a
Finished step. -/
theorem C9_no_tokens (expression : String) (mode : ConversionMode)
    (h : rawTokenize expression.data = []) :
    generateSteps expression mode = Except.ok ⟨[],
        [⟨0, startDesc mode, startExpl mode, [], none⟩,
         ⟨1, "Finished", "Conversion complete.", [], none⟩], mode⟩ ∧
    (generateSteps expression mode).map AlgorithmResult.tokens = Except.ok [] ∧
    (generateSteps expression mode).map (fun r => r.steps.length) = Except.ok 2 ∧
    (generateSteps expression mode).map (fun r => r.steps.map StepSnapshot.description)
        = Except.ok [startDesc mode, "Finished"] ∧
    (generateSteps expression mode).map finalOutputValues = Except.ok [] := by
  have htok : tokensOf expression mode = [] := by
    cases mode <;> simp [tokensOf, rawOf, h, mkTokens, mkTokensFrom]
  have hgs : generateSteps expression mode = Except.ok ⟨[],
      (recordStep (startEng [] mode) "Finished" "Conversion complete." none).steps, mode⟩ := by
    unfold generateSteps
    rw [htok]
    rfl
  rw [hgs]
  exact ⟨rfl, rfl, rfl, rfl, rfl⟩

/-- C9 witness: the theorem applied to a whitespace-only input. -/
theorem C9_empty_witness :
    (generateSteps " " ConversionMode.POSTFIX).map (fun r => r.steps.length) = Except.ok 2 :=
  (C9_no_tokens " " ConversionMode.POSTFIX rfl).2.2.1

/-- C10: in every successful run, at every recorded step, no parenthesis
token is ever located in the OUTPUT zone, and no right parenthesis is ever
located in the STACK zone: the output queue holds only operands and
operators. -/
theorem C10_no_paren_in_output (expression : String) (mode : ConversionMode)
    (r : AlgorithmResult) (h : generateSteps expression mode = Except.ok r) :
    ∀ s ∈ r.steps, ∀ t ∈ r.tokens,
      (t.type = TokenType.LEFT_PAREN ∨ t.type = TokenType.RIGHT_PAREN →
        (lookupSt s.tokenStates t.id).location ≠ TokenLocation.OUTPUT) ∧
      (t.type = TokenType.RIGHT_PAREN →
        (lookupSt s.tokenStates t.id).location ≠ TokenLocation.STACK) := by
  obtain ⟨htoks, _, hsok, _⟩ := generateSteps_master expression mode r h
  intro s hs t ht
  obtain ⟨stk, outq, hinv⟩ := hsok s hs
  rw [htoks] at ht
  constructor
  · intro hty hloc
    have hmem := hinv.out_comp t ht hloc
    rcases hinv.out_ty t hmem with h1 | h1 <;> rcases hty with h2 | h2 <;> rw [h2] at h1 <;>
      exact absurd h1 (by decide)
  · intro hty hloc
    have hmem := hinv.stack_comp t ht hloc
    rcases hinv.stack_ty t hmem with h1 | h1 <;> rw [hty] at h1 <;> exact absurd h1 (by decide)

/-- C10 witness: the theorem applied to a step of the concrete run of
`( A )`, for its left-parenthesis token. -/
theorem C10_no_paren_witness :
    (lookupSt (runParenA.steps.getD 3 defaultSnap).tokenStates (mkTok 0 "(").id).location
      ≠ TokenLocation.OUTPUT :=
  (C10_no_paren_in_output "( A )" ConversionMode.POSTFIX runParenA rfl
      (runParenA.steps.getD 3 defaultSnap) (by decide) (mkTok 0 "(") (by decide)).1
    (Or.inl (by decide))
